import Mathlib

/-!
Verification of the `ung` engine core: generational slot map, transform
scene graph, skeleton forward-kinematics pass and animation sampling /
pose blending, shallowly embedded from the C++ sources
(`src/slotmap.cpp`, `src/transform.cpp`, `src/animation.cpp`,
`src/types.hpp`, `src/um.cpp`).

Machine integers are modelled as `Nat` with explicit `% 2^w` where the C
code can overflow (notably `make_key`, whose `gen << 24 | idx` is
computed in `u32` arithmetic before widening to `u64`).  `float`
arithmetic is modelled over `ℚ`; the only non-rational kernels
(`sqrtf` inside quaternion normalization, and the transcendental part of
`um_quat_slerp`) are modelled by an exact rational square root (used by
the theorems only at perfect squares, where it agrees with real `sqrtf`)
and by an explicit function parameter, respectively.  C `assert`s are
compiled out in release builds and are modelled as no-ops; the
assertions' conditions reappear as hypotheses of the theorems.
-/

namespace Ung

/-! ### Slot map (`src/slotmap.cpp`)

The keys array doubles as the embedded free list: a free element has the
upper 8 bits (`FreeMask`) set and stores the index of the next free
element; key 0 is always invalid. -/

/-- `MaxIdx = 0xFF'FFFF` from `slotmap.cpp`. -/
def MaxIdx : Nat := 0xFFFFFF

/-- `FreeMask = 0xFF00'0000'0000'0000` from `slotmap.cpp`. -/
def FreeMask : Nat := 0xFF00000000000000

/-- `static u64 make_key(u32 idx, u32 gen) { return gen << 24 | idx; }`.
The expression is evaluated in `u32` arithmetic (both operands are
`u32`), so `gen << 24` wraps modulo `2^32` before the implicit widening
to `u64`. -/
def make_key (idx gen : Nat) : Nat :=
  ((gen <<< 24) % 2 ^ 32) ||| idx

/-- `ung_slotmap_get_index(key) = key & MaxIdx`. -/
def ung_slotmap_get_index (key : Nat) : Nat :=
  key &&& MaxIdx

/-- `ung_slotmap_get_generation(key) = (key & 0xFFFF'FF00'0000) >> 24`. -/
def ung_slotmap_get_generation (key : Nat) : Nat :=
  (key &&& 0xFFFFFF000000) >>> 24

/-- The `ung_slotmap` struct: a keys array (modelled as a list whose
length is the capacity) and the free-list head index. -/
structure Slotmap where
  keys : List Nat
  capacity : Nat
  free_list_head : Nat
  deriving Repr, DecidableEq

/-- `ung_slotmap_init`: every slot is free, pointing to `i+1` as next
free slot, generation seeded to 1. -/
def ung_slotmap_init (capacity : Nat) : Slotmap :=
  { keys := (List.range capacity).map (fun i => FreeMask ||| make_key (i + 1) 1)
    capacity := capacity
    free_list_head := 0 }

/-- `ung_slotmap_insert`: pops the free-list head.  Returns the new key
(0 on exhaustion, leaving the map untouched) together with the updated
map.  The debug-build `assert(idx < s->capacity)` is a no-op in release;
the C code then returns 0. -/
def ung_slotmap_insert (s : Slotmap) : Nat × Slotmap :=
  let idx := s.free_list_head
  if idx ≥ s.capacity then (0, s)
  else
    let slot := s.keys.getD idx 0
    let gen := ung_slotmap_get_generation slot
    let newkey := make_key idx gen
    (newkey,
      { s with
        keys := s.keys.set idx newkey
        free_list_head := ung_slotmap_get_index slot })

/-- `ung_slotmap_contains`: the free bits must be clear, the index in
range, and the stored key identical. -/
def ung_slotmap_contains (s : Slotmap) (key : Nat) : Bool :=
  key &&& FreeMask == 0
    && ung_slotmap_get_index key < s.capacity
    && s.keys.getD (ung_slotmap_get_index key) 0 == key

/-- `ung_slotmap_remove`: pushes the slot onto the free list and stores
the incremented generation.  Returns the C function's `bool` result and
the updated map. -/
def ung_slotmap_remove (s : Slotmap) (key : Nat) : Bool × Slotmap :=
  if ung_slotmap_contains s key then
    let idx := ung_slotmap_get_index key
    let gen := ung_slotmap_get_generation key
    (true,
      { s with
        keys := s.keys.set idx (FreeMask ||| make_key s.free_list_head (gen + 1))
        free_list_head := idx })
  else (false, s)

/-- An operation in a client-driven insert/remove trace. -/
inductive SMOp where
  | ins : SMOp
  | rem : Nat → SMOp
  deriving Repr, DecidableEq

/-- One step of the slot-map state machine. -/
def smStep (s : Slotmap) : SMOp → Slotmap
  | .ins => (ung_slotmap_insert s).2
  | .rem k => (ung_slotmap_remove s k).2

/-- Running a trace of operations. -/
def smRun (s : Slotmap) : List SMOp → Slotmap
  | [] => s
  | op :: ops => smRun (smStep s op) ops

/-- Generation bits currently stored at slot `i`. -/
def genAt (s : Slotmap) (i : Nat) : Nat :=
  ung_slotmap_get_generation (s.keys.getD i 0)

/-- 1 when the operation is a successful removal at index `i` in state
`s`, 0 otherwise. -/
def opHit (s : Slotmap) (i : Nat) : SMOp → Nat
  | .ins => 0
  | .rem k =>
    if ung_slotmap_contains s k = true ∧ ung_slotmap_get_index k = i then 1 else 0

/-- Number of successful removals at index `i` along a trace (a removal
succeeds when the removed key is contained at that moment). -/
def removesAt (s : Slotmap) (i : Nat) : List SMOp → Nat
  | [] => 0
  | op :: ops => opHit s i op + removesAt (smStep s op) i ops

/-- States reachable from `ung_slotmap_init` satisfy this invariant:
the keys array has `capacity` entries, the capacity fits the 24-bit
index budget (asserted in `ung_slotmap_init`), the free-list head is a
24-bit value, and every stored generation is reduced modulo 256 (the
`u32` truncation in `make_key` keeps only 8 generation bits). -/
def SMWF (s : Slotmap) : Prop :=
  s.keys.length = s.capacity
    ∧ s.capacity < 0xFFFFFF
    ∧ s.free_list_head < 2 ^ 24
    ∧ ∀ i, i < s.capacity → genAt s i < 256

instance (s : Slotmap) : Decidable (SMWF s) := by
  unfold SMWF
  exact inferInstance

/-! ### Math library (`src/um.cpp`), over `ℚ`

`float` scalars are modelled as exact rationals.  `sqrtf` is modelled by
`ratSqrt`, an exact rational square root: it agrees with the real square
root whenever numerator and denominator are perfect squares (the only
points at which the theorems below evaluate it). -/

/-- Model of `sqrtf`: exact on rationals whose numerator and denominator
are perfect squares, e.g. `ratSqrt 1 = 1`. -/
def ratSqrt (x : ℚ) : ℚ :=
  (Nat.sqrt x.num.toNat : ℚ) / (Nat.sqrt x.den : ℚ)

/-- `um_vec3`. -/
structure um_vec3 where
  x : ℚ
  y : ℚ
  z : ℚ
  deriving Repr, DecidableEq

/-- `um_vec4`. -/
structure um_vec4 where
  x : ℚ
  y : ℚ
  z : ℚ
  w : ℚ
  deriving Repr, DecidableEq

/-- `um_quat` (fields `x, y, z, w`). -/
structure um_quat where
  x : ℚ
  y : ℚ
  z : ℚ
  w : ℚ
  deriving Repr, DecidableEq

/-- `um_mat`: four columns of `um_vec4` (column-major). -/
structure um_mat where
  c0 : um_vec4
  c1 : um_vec4
  c2 : um_vec4
  c3 : um_vec4
  deriving Repr, DecidableEq

def um_vec3_len (v : um_vec3) : ℚ :=
  ratSqrt (v.x * v.x + v.y * v.y + v.z * v.z)

def um_vec3_mul (v : um_vec3) (s : ℚ) : um_vec3 :=
  ⟨v.x * s, v.y * s, v.z * s⟩

/-- `um_vec3_lerp(a, b, t) = a + (b - a) * t` componentwise. -/
def um_vec3_lerp (a b : um_vec3) (t : ℚ) : um_vec3 :=
  ⟨a.x + (b.x - a.x) * t, a.y + (b.y - a.y) * t, a.z + (b.z - a.z) * t⟩

def um_quat_identity : um_quat := ⟨0, 0, 0, 1⟩

def um_quat_len (q : um_quat) : ℚ :=
  ratSqrt (q.x * q.x + q.y * q.y + q.z * q.z + q.w * q.w)

/-- `um_quat_normalized`: returns the identity quaternion when the length
is below the `0.0001f` guard, otherwise divides by the length. -/
def um_quat_normalized (q : um_quat) : um_quat :=
  let len := um_quat_len q
  if len < 1 / 10000 then um_quat_identity
  else
    let inv_len := 1 / len
    ⟨q.x * inv_len, q.y * inv_len, q.z * inv_len, q.w * inv_len⟩

/-- `um_quat_from_matrix` (Shepperd-style branch on the trace). -/
def um_quat_from_matrix (m : um_mat) : um_quat :=
  let m00 := m.c0.x
  let m01 := m.c1.x
  let m02 := m.c2.x
  let m10 := m.c0.y
  let m11 := m.c1.y
  let m12 := m.c2.y
  let m20 := m.c0.z
  let m21 := m.c1.z
  let m22 := m.c2.z
  let trace := m00 + m11 + m22
  let q : um_quat :=
    if 0 < trace then
      let s := (1 / 2) / ratSqrt (trace + 1)
      ⟨(m21 - m12) * s, (m02 - m20) * s, (m10 - m01) * s, (1 / 4) / s⟩
    else if m11 < m00 ∧ m22 < m00 then
      let s := 2 * ratSqrt (1 + m00 - m11 - m22)
      ⟨(1 / 4) * s, (m01 + m10) / s, (m02 + m20) / s, (m21 - m12) / s⟩
    else if m22 < m11 then
      let s := 2 * ratSqrt (1 + m11 - m00 - m22)
      ⟨(m01 + m10) / s, (1 / 4) * s, (m12 + m21) / s, (m02 - m20) / s⟩
    else
      let s := 2 * ratSqrt (1 + m22 - m00 - m11)
      ⟨(m02 + m20) / s, (m12 + m21) / s, (1 / 4) * s, (m10 - m01) / s⟩
  um_quat_normalized q

def um_mat_identity : um_mat :=
  ⟨⟨1, 0, 0, 0⟩, ⟨0, 1, 0, 0⟩, ⟨0, 0, 1, 0⟩, ⟨0, 0, 0, 1⟩⟩

def um_mat_scale (v : um_vec3) : um_mat :=
  ⟨⟨v.x, 0, 0, 0⟩, ⟨0, v.y, 0, 0⟩, ⟨0, 0, v.z, 0⟩, ⟨0, 0, 0, 1⟩⟩

def um_mat_translate (v : um_vec3) : um_mat :=
  ⟨⟨1, 0, 0, 0⟩, ⟨0, 1, 0, 0⟩, ⟨0, 0, 1, 0⟩, ⟨v.x, v.y, v.z, 1⟩⟩

/-- `um_mat_from_quat`. -/
def um_mat_from_quat (q : um_quat) : um_mat :=
  let xx := q.x * q.x
  let xy := q.x * q.y
  let xz := q.x * q.z
  let xw := q.x * q.w
  let yy := q.y * q.y
  let yz := q.y * q.z
  let yw := q.y * q.w
  let zz := q.z * q.z
  let zw := q.z * q.w
  ⟨⟨1 - 2 * (yy + zz), 2 * (xy + zw), 2 * (xz - yw), 0⟩,
    ⟨2 * (xy - zw), 1 - 2 * (xx + zz), 2 * (yz + xw), 0⟩,
    ⟨2 * (xz + yw), 2 * (yz - xw), 1 - 2 * (xx + yy), 0⟩,
    ⟨0, 0, 0, 1⟩⟩

def um_mat_mul_vec4 (m : um_mat) (v : um_vec4) : um_vec4 :=
  ⟨m.c0.x * v.x + m.c1.x * v.y + m.c2.x * v.z + m.c3.x * v.w,
    m.c0.y * v.x + m.c1.y * v.y + m.c2.y * v.z + m.c3.y * v.w,
    m.c0.z * v.x + m.c1.z * v.y + m.c2.z * v.z + m.c3.z * v.w,
    m.c0.w * v.x + m.c1.w * v.y + m.c2.w * v.z + m.c3.w * v.w⟩

/-- `um_mat_mul`: column `i` of the result is `a * b.cols[i]`. -/
def um_mat_mul (a b : um_mat) : um_mat :=
  ⟨um_mat_mul_vec4 a b.c0, um_mat_mul_vec4 a b.c1,
    um_mat_mul_vec4 a b.c2, um_mat_mul_vec4 a b.c3⟩

/-- `um_mat_invert` (cofactor expansion; returns the identity when
`|det| < 0.000001f`). -/
def um_mat_invert (m : um_mat) : um_mat :=
  let a00 := m.c0.x
  let a01 := m.c1.x
  let a02 := m.c2.x
  let a03 := m.c3.x
  let a10 := m.c0.y
  let a11 := m.c1.y
  let a12 := m.c2.y
  let a13 := m.c3.y
  let a20 := m.c0.z
  let a21 := m.c1.z
  let a22 := m.c2.z
  let a23 := m.c3.z
  let a30 := m.c0.w
  let a31 := m.c1.w
  let a32 := m.c2.w
  let a33 := m.c3.w
  let b00 := a00 * a11 - a01 * a10
  let b01 := a00 * a12 - a02 * a10
  let b02 := a00 * a13 - a03 * a10
  let b03 := a01 * a12 - a02 * a11
  let b04 := a01 * a13 - a03 * a11
  let b05 := a02 * a13 - a03 * a12
  let b06 := a20 * a31 - a21 * a30
  let b07 := a20 * a32 - a22 * a30
  let b08 := a20 * a33 - a23 * a30
  let b09 := a21 * a32 - a22 * a31
  let b10 := a21 * a33 - a23 * a31
  let b11 := a22 * a33 - a23 * a32
  let det := b00 * b11 - b01 * b10 + b02 * b09 + b03 * b08 - b04 * b07 + b05 * b06
  if |det| < 1 / 1000000 then um_mat_identity
  else
    let d := 1 / det
    ⟨⟨(a11 * b11 - a12 * b10 + a13 * b09) * d,
        (a12 * b08 - a10 * b11 - a13 * b07) * d,
        (a10 * b10 - a11 * b08 + a13 * b06) * d,
        (a11 * b07 - a10 * b09 - a12 * b06) * d⟩,
      ⟨(a02 * b10 - a01 * b11 - a03 * b09) * d,
        (a00 * b11 - a02 * b08 + a03 * b07) * d,
        (a01 * b08 - a00 * b10 - a03 * b06) * d,
        (a00 * b09 - a01 * b07 + a02 * b06) * d⟩,
      ⟨(a31 * b05 - a32 * b04 + a33 * b03) * d,
        (a32 * b02 - a30 * b05 - a33 * b01) * d,
        (a30 * b04 - a31 * b02 + a33 * b00) * d,
        (a31 * b01 - a30 * b03 - a32 * b00) * d⟩,
      ⟨(a22 * b04 - a21 * b05 - a23 * b03) * d,
        (a20 * b05 - a22 * b02 + a23 * b01) * d,
        (a21 * b02 - a20 * b04 + a23 * b00) * d,
        (a20 * b03 - a21 * b01 + a22 * b00) * d⟩⟩

/-- `um_mat_decompose_trs`: translation from the last column, scale as
column lengths, rotation from the scale-normalized basis. -/
def um_mat_decompose_trs (m : um_mat) : um_vec3 × um_quat × um_vec3 :=
  let translation : um_vec3 := ⟨m.c3.x, m.c3.y, m.c3.z⟩
  let c0 : um_vec3 := ⟨m.c0.x, m.c0.y, m.c0.z⟩
  let c1 : um_vec3 := ⟨m.c1.x, m.c1.y, m.c1.z⟩
  let c2 : um_vec3 := ⟨m.c2.x, m.c2.y, m.c2.z⟩
  let scale : um_vec3 := ⟨um_vec3_len c0, um_vec3_len c1, um_vec3_len c2⟩
  let n0 := um_vec3_mul c0 (1 / scale.x)
  let n1 := um_vec3_mul c1 (1 / scale.y)
  let n2 := um_vec3_mul c2 (1 / scale.z)
  let r : um_mat :=
    ⟨⟨n0.x, n0.y, n0.z, 0⟩, ⟨n1.x, n1.y, n1.z, 0⟩, ⟨n2.x, n2.y, n2.z, 0⟩, ⟨0, 0, 0, 1⟩⟩
  (translation, um_quat_from_matrix r, scale)

/-! ### Animation system (`src/animation.cpp`) -/

/-- `ung_joint_transform`: translation, rotation, scale (the flat float
arrays of the C struct are modelled as the typed vectors they hold). -/
structure ung_joint_transform where
  translation : um_vec3
  rotation : um_quat
  scale : um_vec3
  deriving Repr, DecidableEq

def default_joint_transform : ung_joint_transform :=
  ⟨⟨0, 0, 0⟩, ⟨0, 0, 0, 0⟩, ⟨0, 0, 0⟩⟩

/-- `ung_joint_dof`. -/
inductive ung_joint_dof where
  | invalid
  | translation
  | rotation
  | scale
  deriving Repr, DecidableEq

/-- `ung_animation_sampler_type`. -/
inductive ung_animation_sampler_type where
  | invalid
  | vec3
  | quat
  deriving Repr, DecidableEq

/-- `ung_animation_interp`. -/
inductive ung_animation_interp where
  | invalid
  | step
  | linear
  deriving Repr, DecidableEq

/-- `ung_animation_key`. -/
structure ung_animation_key where
  joint_index : Nat
  dof : ung_joint_dof
  deriving Repr, DecidableEq

/-- `AnimationChannel`.  The C struct stores one flat `float* values`
buffer read with stride 3 (vec3 sampler) or 4 (quat sampler); here the
two readings are the two typed lists, of which only the one matching
`sampler_type` is ever read.  `num_samples = times.length`. -/
structure AnimationChannel where
  key : ung_animation_key
  sampler_type : ung_animation_sampler_type
  interp_type : ung_animation_interp
  times : List ℚ
  values_vec3 : List um_vec3
  values_quat : List um_quat
  deriving Repr, DecidableEq

/-- `Animation`. -/
structure Animation where
  duration_s : ℚ
  channels : List AnimationChannel
  deriving Repr, DecidableEq

/-- `ung_animation_create_params` (channel array plus caller-supplied
`duration_s`). -/
structure ung_animation_create_params where
  channels : List AnimationChannel
  duration_s : ℚ
  deriving Repr, DecidableEq

/-- The payload construction of `ung_animation_create`: `duration_s` is
copied from the params verbatim; channel times/values are deep-copied,
and every sample of a quaternion-typed channel is normalized on
ingestion.  (The strictly-ascending-times `assert` is a release no-op;
it reappears as a hypothesis of the sampling theorems.) -/
def mkAnimationChannel (src : AnimationChannel) : AnimationChannel :=
  { src with
    values_vec3 := if src.sampler_type = .vec3 then src.values_vec3 else []
    values_quat :=
      if src.sampler_type = .quat then src.values_quat.map um_quat_normalized else [] }

def ung_animation_create_payload (params : ung_animation_create_params) : Animation :=
  { duration_s := params.duration_s
    channels := params.channels.map mkAnimationChannel }

/-- `ung_animation_get_duration` (on the payload). -/
def ung_animation_get_duration (anim : Animation) : ℚ :=
  anim.duration_s

/-- Derived notion used only to compare against the spec sentence
"Duration is the maximum final sample time across all channels": the
maximum last sample time over the animation's channels. -/
def max_final_sample_time (anim : Animation) : ℚ :=
  anim.channels.foldl (fun acc ch => max acc (ch.times.getD (ch.times.length - 1) 0)) 0

/-- The binary-search loop of `find_interval` (`while (high > low + 1)`),
with explicit fuel; `fuel = times.length` more than suffices since
`high - low` shrinks every iteration. -/
def fiLoop (times : List ℚ) (t : ℚ) (low high : Nat) : Nat → Nat
  | 0 => low
  | fuel + 1 =>
    if low + 1 < high then
      let mid := (low + high) / 2
      if times.getD mid 0 ≤ t then fiLoop times t mid high fuel
      else fiLoop times t low mid fuel
    else low

/-- `find_interval`: returns `i` so that `t ∈ [times[i], times[i+1])`,
clamped to interval 0 below `times[0]` and to interval `n-2` at or above
`times[n-1]`. -/
def find_interval (times : List ℚ) (t : ℚ) : Nat :=
  let high := times.length
  if t ≤ times.getD 0 0 then 0
  else if times.getD (high - 1) 0 ≤ t then high - 2
  else fiLoop times t 0 high times.length

/-- The file-local `clamp` of `animation.cpp`: `fminf(fmaxf(v, lo), hi)`. -/
def aclamp (v lo hi : ℚ) : ℚ :=
  min (max v lo) hi

/-- `unlerp` (its `assert(t0 < t1)` is guaranteed at the call site by
strictly-ascending times and the `t0 == t1` step fallback). -/
def unlerp (t t0 t1 : ℚ) : ℚ :=
  (aclamp t t0 t1 - t0) / (t1 - t0)

/-- `interp` (vec3 overload).  The unreachable `std::abort()` branch for
an invalid interpolation enum is modelled as returning `v0`; no theorem
evaluates it. -/
def interp_vec3 (ip : ung_animation_interp) (t0 : ℚ) (v0 : um_vec3) (t1 : ℚ)
    (v1 : um_vec3) (t : ℚ) : um_vec3 :=
  if ip = .step ∨ t0 = t1 then (if t < t1 then v0 else v1)
  else if ip = .linear then um_vec3_lerp v0 v1 (unlerp t t0 t1)
  else v0

/-- `interp` (quat overload).  The transcendental kernel of
`um_quat_slerp` (acosf/sinf) has no rational model; it is abstracted as
the function parameter `sl`, and every theorem about sampling holds for
all `sl`. -/
def interp_quat (sl : um_quat → um_quat → ℚ → um_quat) (ip : ung_animation_interp)
    (t0 : ℚ) (q0 : um_quat) (t1 : ℚ) (q1 : um_quat) (t : ℚ) : um_quat :=
  if ip = .step ∨ t0 = t1 then (if t < t1 then q0 else q1)
  else if ip = .linear then um_quat_normalized (sl q0 q1 (unlerp t t0 t1))
  else q0

/-- The body of the per-channel loop of `ung_animation_sample`, acting on
the joint-transform buffer (whose length plays the role of
`num_joints`). -/
def sample_channel (sl : um_quat → um_quat → ℚ → um_quat) (t : ℚ)
    (joints : List ung_joint_transform) (ch : AnimationChannel) :
    List ung_joint_transform :=
  if ch.key.joint_index ≥ joints.length then joints
  else if ch.times.length = 0 then joints
  else if ch.times.length = 1 then
    match ch.sampler_type with
    | .vec3 =>
      let v := ch.values_vec3.getD 0 ⟨0, 0, 0⟩
      match ch.key.dof with
      | .translation =>
        joints.set ch.key.joint_index
          { joints.getD ch.key.joint_index default_joint_transform with translation := v }
      | .scale =>
        joints.set ch.key.joint_index
          { joints.getD ch.key.joint_index default_joint_transform with scale := v }
      | _ => joints
    | .quat =>
      let q := ch.values_quat.getD 0 ⟨0, 0, 0, 0⟩
      match ch.key.dof with
      | .rotation =>
        joints.set ch.key.joint_index
          { joints.getD ch.key.joint_index default_joint_transform with rotation := q }
      | _ => joints
    | .invalid => joints
  else
    let i0 := find_interval ch.times t
    let i1 := i0 + 1
    match ch.sampler_type with
    | .vec3 =>
      let v0 := ch.values_vec3.getD i0 ⟨0, 0, 0⟩
      let v1 := ch.values_vec3.getD i1 ⟨0, 0, 0⟩
      let v := interp_vec3 ch.interp_type (ch.times.getD i0 0) v0 (ch.times.getD i1 0) v1 t
      match ch.key.dof with
      | .translation =>
        joints.set ch.key.joint_index
          { joints.getD ch.key.joint_index default_joint_transform with translation := v }
      | .scale =>
        joints.set ch.key.joint_index
          { joints.getD ch.key.joint_index default_joint_transform with scale := v }
      | _ => joints
    | .quat =>
      let q0 := ch.values_quat.getD i0 ⟨0, 0, 0, 0⟩
      let q1 := ch.values_quat.getD i1 ⟨0, 0, 0, 0⟩
      let q := interp_quat sl ch.interp_type (ch.times.getD i0 0) q0 (ch.times.getD i1 0) q1 t
      match ch.key.dof with
      | .rotation =>
        joints.set ch.key.joint_index
          { joints.getD ch.key.joint_index default_joint_transform with rotation := q }
      | _ => joints
    | .invalid => joints

/-- `ung_animation_sample`: clamps `t` to `[0, duration_s]`, then runs
the channel loop over the joint buffer. -/
def ung_animation_sample (sl : um_quat → um_quat → ℚ → um_quat) (anim : Animation)
    (t : ℚ) (joints : List ung_joint_transform) : List ung_joint_transform :=
  let tc := aclamp t 0 anim.duration_s
  anim.channels.foldl (sample_channel sl tc) joints

/-- `qdot` from `animation.cpp`. -/
def qdot (a b : um_quat) : ℚ :=
  a.w * b.w + a.x * b.x + a.y * b.y + a.z * b.z

/-- `qmix` from `animation.cpp`, embedded faithfully: the C function
returns the aggregate `{ a.w*wa + b.w*wb, a.x*wa + b.x*wb, a.y*wa +
b.y*wb, a.z*wa + b.z*wb }`, and `um_quat`'s fields are declared
`x, y, z, w` in that order — so the `x` field receives the mix of the
`w` components, `y` the mix of `x`, `z` the mix of `y` and `w` the mix
of `z`. -/
def qmix (a : um_quat) (wa : ℚ) (b : um_quat) (wb : ℚ) : um_quat :=
  ⟨a.w * wa + b.w * wb, a.x * wa + b.x * wb, a.y * wa + b.y * wb, a.z * wa + b.z * wb⟩

/-- `ung_blend_poses`: the caller's `out` buffer is the returned list of
`num_joints` entries. -/
def ung_blend_poses (a : List ung_joint_transform) (a_weight : ℚ)
    (b : List ung_joint_transform) (b_weight : ℚ) (joint_mask : Option (List ℚ))
    (num_joints : Nat) : List ung_joint_transform :=
  (List.range num_joints).map fun i =>
    let mask := match joint_mask with
      | some m => m.getD i 0
      | none => 1
    let wa := a_weight
    let wb := b_weight * mask
    let ai := a.getD i default_joint_transform
    let bi := b.getD i default_joint_transform
    let qa := ai.rotation
    let qb := bi.rotation
    let sgn : ℚ := if 0 ≤ qdot qa qb then 1 else -1
    let qsum := um_quat_normalized (qmix qa wa qb (wb * sgn))
    { translation :=
        ⟨ai.translation.x * wa + bi.translation.x * wb,
          ai.translation.y * wa + bi.translation.y * wb,
          ai.translation.z * wa + bi.translation.z * wb⟩
      rotation := qsum
      scale :=
        ⟨ai.scale.x * wa + bi.scale.x * wb,
          ai.scale.y * wa + bi.scale.y * wb,
          ai.scale.z * wa + bi.scale.z * wb⟩ : ung_joint_transform }

/-! ### Skeleton (`src/animation.cpp`) -/

/-- `Joint`: inverse bind matrix and parent index (`int16_t`, negative
means root). -/
structure Joint where
  inverse_bind_matrix : um_mat
  parent_index : Int
  deriving Repr, DecidableEq

/-- `Skeleton` (`num_joints = joints.length`). -/
structure Skeleton where
  joints : List Joint
  joint_transforms : List ung_joint_transform
  local_bind : List ung_joint_transform
  global_transforms : List um_mat
  joint_matrices : List um_mat
  deriving Repr, DecidableEq

/-- `get_matrix` from `animation.cpp`: `translate * rotate * scale`. -/
def get_matrix (trafo : ung_joint_transform) : um_mat :=
  um_mat_mul
    (um_mat_mul (um_mat_translate trafo.translation) (um_mat_from_quat trafo.rotation))
    (um_mat_scale trafo.scale)

/-- The forward pass of `ung_skeleton_update_joint_matrices`: walking the
joints in index order, appending each joint's global transform.  The C
loop reads `global_transforms[parent]` from the array being filled; a
read past the filled prefix (impossible under the topological-order
assertion `parent < i`) would see the slot's create-time initialization
`um_mat_identity`, which is the `getD` default here. -/
def update_globals : List (Joint × ung_joint_transform) → List um_mat → List um_mat
  | [], acc => acc
  | jp :: rest, acc =>
    let local_trafo := get_matrix jp.2
    let g :=
      if 0 ≤ jp.1.parent_index then
        um_mat_mul (acc.getD jp.1.parent_index.toNat um_mat_identity) local_trafo
      else local_trafo
    update_globals rest (acc ++ [g])

/-- `ung_skeleton_update_joint_matrices`: recomputes every global
transform in one forward pass and the skin matrix
`global * inverse_bind` of every joint (in the C loop the skin matrix is
produced in the same iteration as the global it is derived from; the
values are identical). -/
def ung_skeleton_update_joint_matrices (s : Skeleton) : Skeleton :=
  let globals := update_globals (s.joints.zip s.joint_transforms) []
  let skins := (s.joints.zip globals).map fun jg =>
    um_mat_mul jg.2 jg.1.inverse_bind_matrix
  { s with global_transforms := globals, joint_matrices := skins }

/-! ### Transform hierarchy (`src/transform.cpp`)

Transforms live in a `Pool<Transform>`; links (`parent`, `first_child`,
`prev_sibling`, `next_sibling`) are 64-bit handles, 0 meaning none.  The
graph-manipulating operations are modelled over a store mapping handles
to their payloads (`get_transform` = `get(state->transforms, key)`,
which asserts validity and indexes the dense array; the generational
validity checking itself is verified separately on the slot map above).
The C `while` loops over sibling chains are given explicit fuel; on the
cyclic graphs that the fuel cuts off, the C code would not terminate
(the source explicitly does not detect cycles). -/

/-- The `Transform` struct (field `uniform_data` is the external GPU
uniform-buffer id, opaque here). -/
structure Transform where
  local_matrix : um_mat
  orientation : um_quat
  position : um_vec3
  scale : um_vec3
  parent : Nat
  first_child : Nat
  prev_sibling : Nat
  next_sibling : Nat
  uniform_data : Nat
  local_matrix_dirty : Bool
  deriving Repr, DecidableEq

/-- The all-zero payload produced by `Pool::insert`'s `memset`. -/
def zero_transform : Transform :=
  { local_matrix := ⟨⟨0, 0, 0, 0⟩, ⟨0, 0, 0, 0⟩, ⟨0, 0, 0, 0⟩, ⟨0, 0, 0, 0⟩⟩
    orientation := ⟨0, 0, 0, 0⟩
    position := ⟨0, 0, 0⟩
    scale := ⟨0, 0, 0⟩
    parent := 0
    first_child := 0
    prev_sibling := 0
    next_sibling := 0
    uniform_data := 0
    local_matrix_dirty := false }

/-- Handle-indexed store of transform payloads. -/
def TStore : Type := Nat → Transform

/-- Single-object update of the store (one pointer write target). -/
def tset (m : TStore) (k : Nat) (t : Transform) : TStore :=
  fun j => if j = k then t else m j

/-- `link(prev_key, next_key)` from `transform.cpp`. -/
def link (m : TStore) (prev_key next_key : Nat) : TStore :=
  if prev_key = 0 ∧ next_key = 0 then m
  else if prev_key = 0 then tset m next_key { m next_key with prev_sibling := 0 }
  else if next_key = 0 then tset m prev_key { m prev_key with next_sibling := 0 }
  else
    let m1 := tset m prev_key { m prev_key with next_sibling := next_key }
    tset m1 next_key { m1 next_key with prev_sibling := prev_key }

/-- The child-reparenting `while` loop of `ung_transform_destroy`: sets
each child's `parent` and returns the updated store together with
`last_sibling` (the key where the walk stopped). -/
def reparent_children : Nat → TStore → Nat → Nat → TStore × Nat
  | 0, m, child_key, _ => (m, child_key)
  | fuel + 1, m, child_key, parent_key =>
    if child_key = 0 then (m, child_key)
    else
      let m1 := tset m child_key { m child_key with parent := parent_key }
      if (m1 child_key).next_sibling = 0 then (m1, child_key)
      else reparent_children fuel m1 (m1 child_key).next_sibling parent_key

/-- The child-orphaning `while` loop of `ung_transform_destroy` (node
has children but no parent): clears each child's `parent`,
`prev_sibling` and `next_sibling`. -/
def orphan_children : Nat → TStore → Nat → TStore
  | 0, m, _ => m
  | fuel + 1, m, child_key =>
    if child_key = 0 then m
    else
      let next := (m child_key).next_sibling
      let m1 :=
        tset m child_key
          { m child_key with parent := 0, prev_sibling := 0, next_sibling := 0 }
      orphan_children fuel m1 next

/-- `ung_transform_destroy`, link-manipulation part.  All reads of the
destroyed node's fields after the child walk go through the updated
store, exactly as the C code reads them through its `trafo` pointer.
The final `state->transforms.remove(transform.id)` releases the slot in
the pool's slot map (`ung_slotmap_remove`, verified above) and does not
touch any link. -/
def ung_transform_destroy (fuel : Nat) (m : TStore) (key : Nat) : TStore :=
  let trafo := m key
  if trafo.first_child ≠ 0 then
    if trafo.parent ≠ 0 then
      let r := reparent_children fuel m trafo.first_child trafo.parent
      let m1 := r.1
      let last_sibling := r.2
      let t1 := m1 key
      let m2 :=
        if (m1 t1.parent).first_child = key then
          tset m1 t1.parent { m1 t1.parent with first_child := t1.first_child }
        else link m1 t1.prev_sibling t1.first_child
      link m2 last_sibling (m2 key).next_sibling
    else orphan_children fuel m trafo.first_child
  else if trafo.parent ≠ 0 then
    let m1 := link m trafo.prev_sibling trafo.next_sibling
    if (m1 trafo.parent).first_child = key then
      tset m1 trafo.parent { m1 trafo.parent with first_child := (m1 key).next_sibling }
    else m1
  else m

/-- The sibling chain starting at `k` (the parent's child list as the C
code walks it via `get_next_sibling`), with fuel. -/
def chain (m : TStore) : Nat → Nat → List Nat
  | 0, _ => []
  | _, 0 => []
  | fuel + 1, k => k :: chain m fuel (m k).next_sibling

/-- `get_local_matrix`: recomputes `translate * rotate * scale` iff the
dirty flag is set, caches it and clears the flag; returns the matrix
together with the updated (cached) transform. -/
def get_local_matrix (t : Transform) : um_mat × Transform :=
  if t.local_matrix_dirty then
    let lm :=
      um_mat_mul
        (um_mat_mul (um_mat_translate t.position) (um_mat_from_quat t.orientation))
        (um_mat_scale t.scale)
    (lm, { t with local_matrix := lm, local_matrix_dirty := false })
  else (t.local_matrix, t)

/-- `get_world_matrix`: composes `parent_world * local` up the parent
chain, caching local matrices along the way.  Recursion is on fuel; on a
parent cycle the C recursion would not terminate. -/
def get_world_matrix : Nat → TStore → Nat → um_mat × TStore
  | 0, m, _ => (um_mat_identity, m)
  | fuel + 1, m, key =>
    let lt := get_local_matrix (m key)
    let m1 := tset m key lt.2
    if lt.2.parent ≠ 0 then
      let pw := get_world_matrix fuel m1 lt.2.parent
      (um_mat_mul pw.1 lt.1, pw.2)
    else (lt.1, m1)

/-! ### Pools and the creation APIs (`src/types.hpp`, `transform.cpp`,
`animation.cpp`) -/

/-- `Pool<Transform>`: slot map plus dense payload array (indexed by
slot index). -/
structure TransformPool where
  sm : Slotmap
  data : Nat → Transform

/-- `ung_transform_create`.  On pool exhaustion `Pool::insert` returns
`{0, nullptr}` and the C code dereferences the null payload pointer
(`trafo->orientation = ...`) without any check — undefined behavior,
modelled as `none`.  On success the zeroed payload gets identity
orientation, unit scale, a fresh external uniform-buffer id (parameter
`uniform_data_id`) and a dirty local matrix. -/
def ung_transform_create (p : TransformPool) (uniform_data_id : Nat) :
    Option (Nat × TransformPool) :=
  let r := ung_slotmap_insert p.sm
  if r.1 = 0 then none
  else
    let idx := ung_slotmap_get_index r.1
    let t :=
      { zero_transform with
        orientation := um_quat_identity
        scale := ⟨1, 1, 1⟩
        uniform_data := uniform_data_id
        local_matrix_dirty := true }
    some (r.1, { sm := r.2, data := fun j => if j = idx then t else p.data j })

/-- `ung_skeleton_joint` (creation input: inverse bind matrix and parent
index). -/
structure ung_skeleton_joint where
  inverse_bind_matrix : um_mat
  parent_index : Int
  deriving Repr, DecidableEq

/-- `ung_skeleton_create_params`. -/
structure ung_skeleton_create_params where
  joints : List ung_skeleton_joint
  local_bind : Option (List ung_joint_transform)

/-- The local-bind derivation of `ung_skeleton_create` when no
`local_bind` is supplied: decompose
`invert(parent_global) * invert(inverse_bind)` (or just the bind global
for roots) into TRS.  The C loop reads the parent's inverse bind matrix
from the partially-built joint array; under the topological-order
assertion `parent_index < i` that entry equals the corresponding params
entry read here. -/
def derive_local_bind (params_joints : List ung_skeleton_joint)
    (j : ung_skeleton_joint) : ung_joint_transform :=
  let bind_global := um_mat_invert j.inverse_bind_matrix
  let local_m :=
    if 0 ≤ j.parent_index then
      let parent_global :=
        um_mat_invert
          ((params_joints.getD j.parent_index.toNat
              ⟨um_mat_identity, -1⟩).inverse_bind_matrix)
      um_mat_mul (um_mat_invert parent_global) bind_global
    else bind_global
  let trs := um_mat_decompose_trs local_m
  ⟨trs.1, trs.2.1, trs.2.2⟩

/-- The payload construction of `ung_skeleton_create`: joints copied,
local bind copied or derived, mutable pose initialized to the bind pose,
globals and skin matrices initialized to the identity. -/
def ung_skeleton_create_payload (params : ung_skeleton_create_params) : Skeleton :=
  let n := params.joints.length
  let joints := params.joints.map fun j =>
    ({ inverse_bind_matrix := j.inverse_bind_matrix
       parent_index := j.parent_index } : Joint)
  let local_bind :=
    match params.local_bind with
    | some lb => (List.range n).map fun i => lb.getD i default_joint_transform
    | none => params.joints.map (derive_local_bind params.joints)
  { joints := joints
    joint_transforms := local_bind
    local_bind := local_bind
    global_transforms := List.replicate n um_mat_identity
    joint_matrices := List.replicate n um_mat_identity }

/-- `Pool<Skeleton>`. -/
structure SkeletonPool where
  sm : Slotmap
  data : Nat → Skeleton

/-- `ung_skeleton_create`: returns handle 0 and the unmodified pool on
exhaustion (`if (id == 0) return {0};`). -/
def ung_skeleton_create (p : SkeletonPool) (params : ung_skeleton_create_params) :
    Nat × SkeletonPool :=
  let r := ung_slotmap_insert p.sm
  if r.1 = 0 then (0, p)
  else
    let idx := ung_slotmap_get_index r.1
    (r.1,
      { sm := r.2
        data := fun j =>
          if j = idx then ung_skeleton_create_payload params else p.data j })

/-- `Pool<Animation>`. -/
structure AnimationPool where
  sm : Slotmap
  data : Nat → Animation

/-- `ung_animation_create`: returns handle 0 and the unmodified pool on
exhaustion (`if (id == 0) return {0};`). -/
def ung_animation_create (p : AnimationPool) (params : ung_animation_create_params) :
    Nat × AnimationPool :=
  let r := ung_slotmap_insert p.sm
  if r.1 = 0 then (0, p)
  else
    let idx := ung_slotmap_get_index r.1
    (r.1,
      { sm := r.2
        data := fun j =>
          if j = idx then ung_animation_create_payload params else p.data j })

/-- Concrete slot-map state: capacity 1, one insert (returning the
handle `make_key 0 1`) followed by its removal.  The returned handle is
stale from here on. -/
def first_cycle_state : Slotmap :=
  (ung_slotmap_remove (ung_slotmap_insert (ung_slotmap_init 1)).2 (make_key 0 1)).2

/-- Capacity-1 slot-map state whose single slot is free with stored
generation `g` (what a remove leaves behind). -/
def state_g (g : Nat) : Slotmap :=
  { keys := [FreeMask ||| make_key 1 g], capacity := 1, free_list_head := 0 }

/-- `k` insert/remove pairs at index 0: pair `i` inserts (obtaining the
key of generation `i + 2`) and removes it again. -/
def cycle_ops : Nat → List SMOp
  | 0 => []
  | k + 1 => cycle_ops k ++ [SMOp.ins, SMOp.rem (make_key 0 (k + 2))]

/-- 255 further insert/remove pairs at index 0 (each remove bumping the
stored generation, which wraps modulo 256), then one final insert. -/
def stale_wrap_ops : List SMOp :=
  cycle_ops 255 ++ [SMOp.ins]

/-- Creation params with a caller-supplied `duration_s` (5) that differs
from the maximum final sample time of the channels (1). -/
def c9_params : ung_animation_create_params :=
  { channels :=
      [{ key := ⟨0, .translation⟩
         sampler_type := .vec3
         interp_type := .linear
         times := [0, 1]
         values_vec3 := [⟨0, 0, 0⟩, ⟨10, 0, 0⟩]
         values_quat := [] }]
    duration_s := 5 }

/-- The 2-sample vec3 translation channel of the interpolation-exactness
scenario: samples `(0, [0,0,0])` and `(1, [10,0,0])`. -/
def c5_channel (ip : ung_animation_interp) : AnimationChannel :=
  { key := ⟨0, .translation⟩
    sampler_type := .vec3
    interp_type := ip
    times := [0, 1]
    values_vec3 := [⟨0, 0, 0⟩, ⟨10, 0, 0⟩]
    values_quat := [] }

/-- A channel effectively targets `(j, d)` of a `num_joints` buffer:
its key is `(j, d)` with `j` in range, it has at least one sample, and
its sampler type matches the targeted degree of freedom (vec3 for
translation/scale, quaternion for rotation) — exactly the conditions
under which `ung_animation_sample`'s channel loop writes. -/
def channel_touches (ch : AnimationChannel) (num_joints : Nat) (j : Nat)
    (d : ung_joint_dof) : Prop :=
  ch.key.joint_index = j ∧ j < num_joints ∧ 1 ≤ ch.times.length ∧ ch.key.dof = d
    ∧ ((ch.sampler_type = .vec3 ∧ (d = .translation ∨ d = .scale))
        ∨ (ch.sampler_type = .quat ∧ d = .rotation))

instance (ch : AnimationChannel) (num_joints j : Nat) (d : ung_joint_dof) :
    Decidable (channel_touches ch num_joints j d) := by
  unfold channel_touches
  exact inferInstance

/-- Two joint transforms agree on one degree of freedom. -/
def dof_eq (a b : ung_joint_transform) : ung_joint_dof → Prop
  | .translation => a.translation = b.translation
  | .rotation => a.rotation = b.rotation
  | .scale => a.scale = b.scale
  | .invalid => True

/-- Default element for reads of the zipped joint/pose list (never hit
under the topological-order hypotheses). -/
def dJP : Joint × ung_joint_transform := (⟨um_mat_identity, -1⟩, default_joint_transform)

/-- Concrete 3-deep chain for the C3 witness: root (key 1) <- mid
(key 2) <- leaf (key 3), all dirty. -/
def c3_store : TStore := fun k =>
  if k = 3 then { zero_transform with parent := 2, local_matrix_dirty := true }
  else if k = 2 then { zero_transform with parent := 1, local_matrix_dirty := true }
  else if k = 1 then { zero_transform with local_matrix_dirty := true }
  else zero_transform

/-- A sibling run: following `next_sibling` from the head of `l`
traverses exactly `l` and then points at `z` (0 = end of list). -/
def sibChain (m : TStore) : List Nat → Nat → Prop
  | [], _ => True
  | k :: rest, z => (m k).next_sibling = rest.headD z ∧ sibChain m rest z

/-- Concrete store for the C4 witness: node 1 has child list [5, 2, 6];
node 2 has children [3, 4]; node 7 is parentless with children [8, 9];
node 5 is a childless child of 1. -/
def c4m : TStore := fun k =>
  if k = 1 then { zero_transform with first_child := 5 }
  else if k = 5 then { zero_transform with parent := 1, next_sibling := 2 }
  else if k = 2 then
    { zero_transform with
      parent := 1, prev_sibling := 5, next_sibling := 6, first_child := 3 }
  else if k = 6 then { zero_transform with parent := 1, prev_sibling := 2 }
  else if k = 3 then { zero_transform with parent := 2, next_sibling := 4 }
  else if k = 4 then { zero_transform with parent := 2, prev_sibling := 3 }
  else if k = 7 then { zero_transform with first_child := 8 }
  else if k = 8 then { zero_transform with parent := 7, next_sibling := 9 }
  else if k = 9 then { zero_transform with parent := 7, prev_sibling := 8 }
  else zero_transform

/-! #### Arithmetic normal forms of the bit manipulations -/

theorem make_key_eq (idx gen : Nat) (h : idx < 2 ^ 24) :
    make_key idx gen = 2 ^ 24 * (gen % 256) + idx := by
  unfold make_key
  rw [Nat.shiftLeft_eq]
  have h32 : (2 : Nat) ^ 32 = 2 ^ 24 * 2 ^ 8 := by norm_num
  rw [h32, Nat.mul_comm (2 ^ 24) (2 ^ 8), Nat.mul_mod_mul_right,
    Nat.mul_comm (gen % 2 ^ 8) (2 ^ 24), ← Nat.mul_add_lt_is_or h]
  norm_num

theorem get_index_eq (key : Nat) : ung_slotmap_get_index key = key % 2 ^ 24 := by
  unfold ung_slotmap_get_index MaxIdx
  have : (0xFFFFFF : Nat) = 2 ^ 24 - 1 := by norm_num
  rw [this, Nat.and_pow_two_sub_one_eq_mod]

theorem get_generation_eq (key : Nat) :
    ung_slotmap_get_generation key = key / 2 ^ 24 % 2 ^ 24 := by
  unfold ung_slotmap_get_generation
  have hm : (0xFFFFFF000000 : Nat) = (2 ^ 24 - 1) <<< 24 := by decide
  have hd : key / 2 ^ 24 = key >>> 24 := (Nat.shiftRight_eq_div_pow _ _).symm
  rw [hm, hd]
  apply Nat.eq_of_testBit_eq
  intro j
  simp only [Nat.testBit_shiftRight, Nat.testBit_and, Nat.testBit_shiftLeft,
    Nat.testBit_two_pow_sub_one, Nat.testBit_mod_two_pow]
  by_cases hj : j < 24
  · have h24 : 24 ≤ 24 + j := Nat.le_add_right _ _
    simp [hj, h24, Nat.add_sub_cancel_left, Bool.and_comm]
  · simp [hj]

theorem lor_eq_add_of_lt (v : Nat) (h : v < 2 ^ 56) :
    FreeMask ||| v = FreeMask + v := by
  have hf : FreeMask = 2 ^ 56 * 255 := by decide
  rw [hf, ← Nat.mul_add_lt_is_or h]

theorem land_freemask_eq_zero (k : Nat) (h : k < 2 ^ 56) : k &&& FreeMask = 0 := by
  have hf : FreeMask = 255 <<< 56 := by decide
  apply Nat.eq_of_testBit_eq
  intro j
  simp only [hf, Nat.testBit_and, Nat.testBit_shiftLeft, Nat.zero_testBit]
  by_cases hj : 56 ≤ j
  · have : k < 2 ^ j := lt_of_lt_of_le h (Nat.pow_le_pow_right (by norm_num) hj)
    simp [Nat.testBit_lt_two_pow this]
  · simp [hj]

theorem make_key_lt (idx gen : Nat) (h : idx < 2 ^ 24) :
    make_key idx gen < 2 ^ 32 := by
  rw [make_key_eq idx gen h]
  omega

theorem get_index_make_key (idx gen : Nat) (h : idx < 2 ^ 24) :
    ung_slotmap_get_index (make_key idx gen) = idx := by
  rw [get_index_eq, make_key_eq idx gen h]
  omega

theorem get_generation_make_key (idx gen : Nat) (h : idx < 2 ^ 24) :
    ung_slotmap_get_generation (make_key idx gen) = gen % 256 := by
  rw [get_generation_eq, make_key_eq idx gen h]
  omega

theorem land_freemask_make_key (idx gen : Nat) (h : idx < 2 ^ 24) :
    make_key idx gen &&& FreeMask = 0 :=
  land_freemask_eq_zero _ (lt_trans (make_key_lt idx gen h) (by norm_num))

theorem get_index_free_slot (x gen : Nat) (hx : x < 2 ^ 24) :
    ung_slotmap_get_index (FreeMask ||| make_key x gen) = x := by
  have hlt : make_key x gen < 2 ^ 56 := lt_trans (make_key_lt x gen hx) (by norm_num)
  rw [lor_eq_add_of_lt _ hlt, get_index_eq, make_key_eq x gen hx]
  have hf : FreeMask = 2 ^ 56 * 255 := by decide
  rw [hf]
  omega

theorem get_generation_free_slot (x gen : Nat) (hx : x < 2 ^ 24) :
    ung_slotmap_get_generation (FreeMask ||| make_key x gen) = gen % 256 := by
  have hlt : make_key x gen < 2 ^ 56 := lt_trans (make_key_lt x gen hx) (by norm_num)
  rw [lor_eq_add_of_lt _ hlt, get_generation_eq, make_key_eq x gen hx]
  have hf : FreeMask = 2 ^ 56 * 255 := by decide
  rw [hf]
  omega

theorem freemask_lor_land (v : Nat) (h : v < 2 ^ 56) :
    (FreeMask ||| v) &&& FreeMask = FreeMask := by
  rw [Nat.and_distrib_right, Nat.and_self, land_freemask_eq_zero v h, Nat.or_zero]

theorem getD_set_self {α : Type} (l : List α) (i : Nat) (h : i < l.length)
    (a dflt : α) : (l.set i a).getD i dflt = a := by
  simp [List.getD_eq_getElem?_getD, List.getElem?_set, h]

theorem getD_set_ne {α : Type} (l : List α) {i j : Nat} (h : i ≠ j) (a dflt : α) :
    (l.set i a).getD j dflt = l.getD j dflt := by
  simp [List.getD_eq_getElem?_getD, List.getElem?_set, h]

/-! #### State-machine lemmas for the slot map -/

theorem contains_elim {s : Slotmap} {h : Nat} (hc : ung_slotmap_contains s h = true) :
    h &&& FreeMask = 0
      ∧ ung_slotmap_get_index h < s.capacity
      ∧ s.keys.getD (ung_slotmap_get_index h) 0 = h := by
  unfold ung_slotmap_contains at hc
  simp only [Bool.and_eq_true, beq_iff_eq, decide_eq_true_eq] at hc
  exact ⟨hc.1.1, hc.1.2, hc.2⟩

theorem contains_generation {s : Slotmap} {h : Nat}
    (hc : ung_slotmap_contains s h = true) :
    genAt s (ung_slotmap_get_index h) = ung_slotmap_get_generation h := by
  unfold genAt
  rw [(contains_elim hc).2.2]

theorem insert_genAt (s : Slotmap) (hwf : SMWF s) (i : Nat) :
    genAt (ung_slotmap_insert s).2 i = genAt s i := by
  obtain ⟨hlen, hcap, hhead, hgen⟩ := hwf
  unfold ung_slotmap_insert
  by_cases hex : s.free_list_head ≥ s.capacity
  · simp [hex]
  · push_neg at hex
    simp only [ge_iff_le, not_le.mpr hex, if_false]
    unfold genAt
    by_cases hi : s.free_list_head = i
    · subst hi
      simp only
      rw [getD_set_self _ _ (by omega)]
      rw [get_generation_make_key _ _ (by omega)]
      have := hgen s.free_list_head hex
      unfold genAt at this
      omega
    · simp only
      rw [getD_set_ne _ hi]

theorem remove_genAt (s : Slotmap) (hwf : SMWF s) (k i : Nat) :
    genAt (ung_slotmap_remove s k).2 i
      = if ung_slotmap_contains s k = true ∧ ung_slotmap_get_index k = i
        then (genAt s i + 1) % 256
        else genAt s i := by
  obtain ⟨hlen, hcap, hhead, hgen⟩ := hwf
  by_cases hc : ung_slotmap_contains s k = true
  · obtain ⟨hfree, hidx, hkey⟩ := contains_elim hc
    by_cases hi : ung_slotmap_get_index k = i
    · rw [if_pos ⟨hc, hi⟩]
      subst hi
      unfold ung_slotmap_remove
      rw [if_pos hc]
      unfold genAt
      simp only
      rw [getD_set_self _ _ (by omega)]
      rw [get_generation_free_slot _ _ (by omega)]
      have hgk : ung_slotmap_get_generation (s.keys.getD (ung_slotmap_get_index k) 0)
          = ung_slotmap_get_generation k := by rw [hkey]
      omega
    · rw [if_neg (fun hh => hi hh.2)]
      unfold ung_slotmap_remove
      rw [if_pos hc]
      unfold genAt
      simp only
      rw [getD_set_ne _ hi]
  · rw [if_neg (fun hh => hc hh.1)]
    unfold ung_slotmap_remove
    rw [if_neg hc]

theorem insert_wf (s : Slotmap) (hwf : SMWF s) : SMWF (ung_slotmap_insert s).2 := by
  obtain ⟨hlen, hcap, hhead, hgen⟩ := hwf
  unfold ung_slotmap_insert
  by_cases hex : s.free_list_head ≥ s.capacity
  · simp only [hex, if_true]
    exact ⟨hlen, hcap, hhead, hgen⟩
  · push_neg at hex
    simp only [ge_iff_le, not_le.mpr hex, if_false]
    refine ⟨by simpa using hlen, hcap, ?_, ?_⟩
    · rw [get_index_eq]
      have : s.keys.getD s.free_list_head 0 % 2 ^ 24 < 2 ^ 24 := Nat.mod_lt _ (by norm_num)
      simpa using this
    · intro i hi
      have h1 : genAt (ung_slotmap_insert s).2 i = genAt s i :=
        insert_genAt s ⟨hlen, hcap, hhead, hgen⟩ i
      unfold ung_slotmap_insert at h1
      simp only [ge_iff_le, not_le.mpr hex, if_false] at h1
      rw [h1]
      exact hgen i (by simpa using hi)

theorem remove_wf (s : Slotmap) (hwf : SMWF s) (k : Nat) :
    SMWF (ung_slotmap_remove s k).2 := by
  have hall := remove_genAt s hwf k
  obtain ⟨hlen, hcap, hhead, hgen⟩ := hwf
  unfold ung_slotmap_remove
  by_cases hc : ung_slotmap_contains s k = true
  · obtain ⟨hfree, hidx, hkey⟩ := contains_elim hc
    simp only [hc, if_true]
    refine ⟨by simpa using hlen, hcap, ?_, ?_⟩
    · rw [get_index_eq]
      have : k % 2 ^ 24 < 2 ^ 24 := Nat.mod_lt _ (by norm_num)
      simpa using this
    · intro i hi
      have h1 := hall i
      unfold ung_slotmap_remove at h1
      simp only [hc, if_true] at h1
      rw [h1]
      by_cases hik : ung_slotmap_get_index k = i
      · rw [if_pos ⟨trivial, hik⟩]
        exact Nat.mod_lt _ (by norm_num)
      · rw [if_neg (fun hh => hik hh.2)]
        exact hgen i (by simpa using hi)
  · simp only [hc, if_false]
    exact ⟨hlen, hcap, hhead, hgen⟩

theorem smStep_wf (s : Slotmap) (hwf : SMWF s) (op : SMOp) : SMWF (smStep s op) := by
  cases op with
  | ins => exact insert_wf s hwf
  | rem k => exact remove_wf s hwf k

theorem smRun_wf (s : Slotmap) (hwf : SMWF s) (ops : List SMOp) : SMWF (smRun s ops) := by
  induction ops generalizing s with
  | nil => exact hwf
  | cons op ops ih => exact ih _ (smStep_wf s hwf op)

theorem smStep_capacity (s : Slotmap) (op : SMOp) : (smStep s op).capacity = s.capacity := by
  cases op with
  | ins =>
    unfold smStep ung_slotmap_insert
    by_cases hex : s.free_list_head ≥ s.capacity <;> simp [hex]
  | rem k =>
    unfold smStep ung_slotmap_remove
    by_cases hc : ung_slotmap_contains s k = true <;> simp [hc]

theorem smStep_genAt (s : Slotmap) (hwf : SMWF s) (op : SMOp) (i : Nat)
    (hlt : genAt s i < 256) :
    genAt (smStep s op) i = (genAt s i + opHit s i op) % 256 := by
  cases op with
  | ins =>
    simp only [smStep, opHit, Nat.add_zero]
    rw [insert_genAt s hwf i, Nat.mod_eq_of_lt hlt]
  | rem k =>
    simp only [smStep, opHit]
    rw [remove_genAt s hwf k i]
    by_cases hik : ung_slotmap_contains s k = true ∧ ung_slotmap_get_index k = i
    · rw [if_pos hik, if_pos hik]
    · rw [if_neg hik, if_neg hik, Nat.add_zero, Nat.mod_eq_of_lt hlt]

theorem smRun_genAt (s : Slotmap) (hwf : SMWF s) (ops : List SMOp) (i : Nat)
    (hi : i < s.capacity) :
    genAt (smRun s ops) i = (genAt s i + removesAt s i ops) % 256 := by
  induction ops generalizing s with
  | nil =>
    have := hwf.2.2.2 i hi
    simp only [smRun, removesAt, Nat.add_zero]
    omega
  | cons op ops ih =>
    have hwf' := smStep_wf s hwf op
    have hcap := smStep_capacity s op
    have hglt : genAt s i < 256 := hwf.2.2.2 i hi
    have hrec := ih (smStep s op) hwf' (by omega)
    simp only [smRun, removesAt]
    rw [hrec, smStep_genAt s hwf op i hglt, Nat.mod_add_mod]
    omega

theorem smRun_capacity (s : Slotmap) (ops : List SMOp) :
    (smRun s ops).capacity = s.capacity := by
  induction ops generalizing s with
  | nil => rfl
  | cons op ops ih => rw [smRun, ih, smStep_capacity]

/-! ### C1 -/

/-- **C1** (amended).  For every well-formed slot-map state: (i) when
the free list is non-empty, the handle returned by
`ung_slotmap_insert` is contained immediately afterwards; (ii) removing
a contained handle makes it non-contained, stores the incremented
generation (modulo 256) at its slot, and preserves well-formedness;
(iii) a handle whose slot generation has already been bumped past it
(the state right after its removal) stays non-contained along every
further insert/remove trace with fewer than 255 successful removals at
that index.  The unbounded "never again / permanently stale" version of
the claim fails, because `make_key` computes `gen << 24 | idx` in `u32`
arithmetic so stored generations wrap modulo 256; see the
counterexample. -/
theorem C1_slotmap_handle_lifecycle (s : Slotmap) (hwf : SMWF s) :
    (s.free_list_head < s.capacity →
        ung_slotmap_contains (ung_slotmap_insert s).2 (ung_slotmap_insert s).1 = true)
    ∧ (∀ h, ung_slotmap_contains s h = true →
        ung_slotmap_contains (ung_slotmap_remove s h).2 h = false
          ∧ genAt (ung_slotmap_remove s h).2 (ung_slotmap_get_index h)
              = (ung_slotmap_get_generation h + 1) % 256
          ∧ SMWF (ung_slotmap_remove s h).2)
    ∧ (∀ h ops, ung_slotmap_get_generation h < 256 →
        genAt s (ung_slotmap_get_index h) = (ung_slotmap_get_generation h + 1) % 256 →
        removesAt s (ung_slotmap_get_index h) ops < 255 →
        ung_slotmap_contains (smRun s ops) h = false) := by
  obtain ⟨hlen, hcap, hhead, hgen⟩ := hwf
  refine ⟨?_, ?_, ?_⟩
  · intro hlt
    have hidx24 : s.free_list_head < 2 ^ 24 := by omega
    unfold ung_slotmap_insert
    rw [if_neg (by omega : ¬ s.free_list_head ≥ s.capacity)]
    simp only [ung_slotmap_contains]
    rw [land_freemask_make_key _ _ hidx24, get_index_make_key _ _ hidx24,
      getD_set_self _ _ (by omega)]
    simp [hlt]
  · intro h hc
    obtain ⟨hfree, hidxlt, hkey⟩ := contains_elim hc
    have hstale : ung_slotmap_contains (ung_slotmap_remove s h).2 h = false := by
      unfold ung_slotmap_remove
      rw [if_pos hc]
      have hmklt : make_key s.free_list_head (ung_slotmap_get_generation h + 1)
          < 2 ^ 56 := lt_trans (make_key_lt _ _ hhead) (by norm_num)
      have hne : FreeMask ||| make_key s.free_list_head (ung_slotmap_get_generation h + 1)
          ≠ h := by
        intro he
        have h1 := freemask_lor_land _ hmklt
        rw [he, hfree] at h1
        exact absurd h1.symm (by decide)
      simp only [ung_slotmap_contains]
      rw [getD_set_self _ _ (by omega)]
      simp [hne]
    refine ⟨hstale, ?_, remove_wf s ⟨hlen, hcap, hhead, hgen⟩ h⟩
    rw [remove_genAt s ⟨hlen, hcap, hhead, hgen⟩ h _, if_pos ⟨hc, rfl⟩,
      contains_generation hc]
  · intro h ops hg256 hslot hcount
    by_cases hidx : ung_slotmap_get_index h < s.capacity
    · cases hct : ung_slotmap_contains (smRun s ops) h with
      | false => rfl
      | true =>
        exfalso
        have h1 := contains_generation hct
        rw [smRun_genAt s ⟨hlen, hcap, hhead, hgen⟩ ops _ hidx, hslot] at h1
        omega
    · have hcap2 : ¬ ung_slotmap_get_index h < (smRun s ops).capacity := by
        rw [smRun_capacity]
        exact hidx
      simp [ung_slotmap_contains, hcap2]

/-- Witness for C1: the concrete state after one insert/remove on a
capacity-1 slot map; the stale handle `make_key 0 1` is still
non-contained after a further insert reuses index 0. -/
theorem C1_slotmap_handle_lifecycle_witness :
    ung_slotmap_contains (smRun first_cycle_state [SMOp.ins]) (make_key 0 1) = false :=
  (C1_slotmap_handle_lifecycle first_cycle_state (by decide)).2.2 (make_key 0 1)
    [SMOp.ins] (by decide) (by decide) (by decide)

theorem smRun_append (s : Slotmap) (l1 l2 : List SMOp) :
    smRun s (l1 ++ l2) = smRun (smRun s l1) l2 := by
  induction l1 generalizing s with
  | nil => rfl
  | cons op ops ih =>
    simp only [List.cons_append, smRun]
    exact ih (smStep s op)

theorem make_key_gen_congr (x a b : Nat) (h : a % 256 = b % 256) :
    make_key x a = make_key x b := by
  unfold make_key
  rw [Nat.shiftLeft_eq, Nat.shiftLeft_eq]
  have he : a * 2 ^ 24 % 2 ^ 32 = b * 2 ^ 24 % 2 ^ 32 := by omega
  rw [he]

/-- One insert/remove pair on the free generation-`g` slot leaves the
slot free with generation `g + 1` (reduced modulo 256 by `make_key`). -/
theorem cycle_step (g : Nat) :
    smStep (smStep (state_g g) SMOp.ins) (SMOp.rem (make_key 0 g)) = state_g (g + 1) := by
  have h24 : (1 : Nat) < 2 ^ 24 := by norm_num
  have hins : smStep (state_g g) SMOp.ins
      = { keys := [make_key 0 g], capacity := 1, free_list_head := 1 } := by
    unfold smStep ung_slotmap_insert state_g
    rw [if_neg (by norm_num)]
    simp only [List.getD_cons_zero]
    rw [get_generation_free_slot 1 g h24, get_index_free_slot 1 g h24,
      make_key_gen_congr 0 (g % 256) g (by omega)]
    rfl
  rw [hins]
  have hcon : ung_slotmap_contains
      { keys := [make_key 0 g], capacity := 1, free_list_head := 1 } (make_key 0 g)
        = true := by
    simp only [ung_slotmap_contains]
    rw [land_freemask_make_key _ _ (by norm_num), get_index_make_key _ _ (by norm_num)]
    simp
  rw [show smStep { keys := [make_key 0 g], capacity := 1, free_list_head := 1 }
      (SMOp.rem (make_key 0 g))
      = (ung_slotmap_remove { keys := [make_key 0 g], capacity := 1, free_list_head := 1 }
          (make_key 0 g)).2 from rfl]
  unfold ung_slotmap_remove
  rw [if_pos hcon]
  simp only
  rw [get_index_make_key _ _ (by norm_num), get_generation_make_key _ _ (by norm_num),
    make_key_gen_congr 1 (g % 256 + 1) (g + 1) (by omega)]
  rfl

/-- Running `k` insert/remove pairs from the post-first-removal state
advances the stored generation to `2 + k` (mod 256 inside `make_key`). -/
theorem run_cycles (k : Nat) : smRun (state_g 2) (cycle_ops k) = state_g (2 + k) := by
  induction k with
  | zero => rfl
  | succ k ih =>
    show smRun (state_g 2) (cycle_ops k ++ [SMOp.ins, SMOp.rem (make_key 0 (k + 2))])
        = state_g (2 + (k + 1))
    rw [smRun_append, ih]
    simp only [smRun]
    rw [show (2 : Nat) + k = k + 2 from by omega]
    rw [cycle_step (k + 2)]
    rw [show (2 : Nat) + (k + 1) = k + 2 + 1 from by omega]

/-- Counterexample to C1 as stated: the handle `make_key 0 1` returned
by the first insert and then removed (hence stale) is reported as
contained again after 255 further insert/remove cycles at index 0 and
one more insert — the stored generation wraps modulo 256 because
`make_key` truncates `gen << 24` to `u32`. -/
theorem C1_stale_handle_contained_again_after_wrap :
    ung_slotmap_contains first_cycle_state (make_key 0 1) = false
      ∧ ung_slotmap_contains (smRun first_cycle_state stale_wrap_ops) (make_key 0 1)
          = true := by
  have hfc : first_cycle_state = state_g 2 := by decide
  have hrun : smRun first_cycle_state stale_wrap_ops
      = smRun (state_g 257) [SMOp.ins] := by
    rw [hfc]
    show smRun (state_g 2) (cycle_ops 255 ++ [SMOp.ins]) = _
    rw [smRun_append, run_cycles 255]
  refine ⟨by decide, ?_⟩
  rw [hrun]
  decide

/-! ### C8 -/

/-- **C8.**  With the free list exhausted (head out of range):
`ung_slotmap_insert` returns the null handle 0 and leaves the slot map
unmodified, and `ung_skeleton_create` / `ung_animation_create` surface
this as a returned null handle with the pool untouched.
`ung_transform_create`, however, does **not** surface a null handle: it
dereferences the null payload pointer returned by `Pool::insert`
(undefined behavior, modelled as `none`), contradicting the
error-handling design every other creation API follows. -/
theorem C8_creation_on_pool_exhaustion
    (tp : TransformPool) (sp : SkeletonPool) (ap : AnimationPool) (u : Nat)
    (ps : ung_skeleton_create_params) (pa : ung_animation_create_params)
    (ht : tp.sm.free_list_head ≥ tp.sm.capacity)
    (hs : sp.sm.free_list_head ≥ sp.sm.capacity)
    (ha : ap.sm.free_list_head ≥ ap.sm.capacity) :
    ung_slotmap_insert tp.sm = (0, tp.sm)
      ∧ ung_skeleton_create sp ps = (0, sp)
      ∧ ung_animation_create ap pa = (0, ap)
      ∧ ung_transform_create tp u = none := by
  have hz : ∀ s : Slotmap, s.free_list_head ≥ s.capacity → ung_slotmap_insert s = (0, s) := by
    intro s hex
    unfold ung_slotmap_insert
    rw [if_pos hex]
  refine ⟨hz tp.sm ht, ?_, ?_, ?_⟩
  · unfold ung_skeleton_create
    rw [hz sp.sm hs]
    rfl
  · unfold ung_animation_create
    rw [hz ap.sm ha]
    rfl
  · unfold ung_transform_create
    rw [hz tp.sm ht]
    rfl

/-- Witness for C8 at a concrete exhausted pool (capacity 0, so the
free-list head 0 is already out of range). -/
theorem C8_creation_on_pool_exhaustion_witness :
    ung_slotmap_insert (ung_slotmap_init 0) = (0, ung_slotmap_init 0)
      ∧ ung_skeleton_create ⟨ung_slotmap_init 0, fun _ => ung_skeleton_create_payload ⟨[], none⟩⟩
          ⟨[], none⟩
          = (0, ⟨ung_slotmap_init 0, fun _ => ung_skeleton_create_payload ⟨[], none⟩⟩)
      ∧ ung_animation_create ⟨ung_slotmap_init 0, fun _ => ung_animation_create_payload ⟨[], 0⟩⟩
          ⟨[], 0⟩
          = (0, ⟨ung_slotmap_init 0, fun _ => ung_animation_create_payload ⟨[], 0⟩⟩)
      ∧ ung_transform_create ⟨ung_slotmap_init 0, fun _ => zero_transform⟩ 0 = none :=
  C8_creation_on_pool_exhaustion
    ⟨ung_slotmap_init 0, fun _ => zero_transform⟩
    ⟨ung_slotmap_init 0, fun _ => ung_skeleton_create_payload ⟨[], none⟩⟩
    ⟨ung_slotmap_init 0, fun _ => ung_animation_create_payload ⟨[], 0⟩⟩
    0 ⟨[], none⟩ ⟨[], 0⟩ (by decide) (by decide) (by decide)

/-! ### C9 -/

/-- **C9** (amended).  `ung_animation_get_duration` returns the
`duration_s` the caller supplied at creation time (fixed: nothing ever
mutates it).  It is *not* computed as the maximum final sample time
across the channels — that is up to the caller (the glTF loader happens
to pass exactly that value); see the counterexample. -/
theorem C9_duration_is_creation_param (params : ung_animation_create_params) :
    ung_animation_get_duration (ung_animation_create_payload params)
      = params.duration_s := rfl

/-- Counterexample to C9 as stated: an animation created with
`duration_s = 5` whose single channel's last sample time is 1 reports
duration 5, not the maximum final sample time. -/
theorem C9_duration_differs_from_max_final_sample_time :
    ung_animation_get_duration (ung_animation_create_payload c9_params) = 5
      ∧ max_final_sample_time (ung_animation_create_payload c9_params) = 1
      ∧ ung_animation_get_duration (ung_animation_create_payload c9_params)
          ≠ max_final_sample_time (ung_animation_create_payload c9_params) := by
  refine ⟨rfl, by decide, by decide⟩

/-! ### C5 -/

/-- On the two-sample time array `[0, 1]`, `find_interval` always
returns interval 0 (the only interval). -/
theorem find_interval_01 (u : ℚ) : find_interval [0, 1] u = 0 := by
  unfold find_interval
  by_cases h0 : u ≤ (0 : ℚ)
  · rw [if_pos (by simpa using h0)]
  · by_cases h1 : (1 : ℚ) ≤ u
    · rw [if_neg (by simpa using h0), if_pos (by simpa using h1)]
      rfl
    · rw [if_neg (by simpa using h0), if_neg (by simpa using h1)]
      show fiLoop [0, 1] u 0 2 2 = 0
      unfold fiLoop
      rw [if_pos (by norm_num)]
      rw [if_neg (by push_neg; simpa using not_le.mp h1)]
      unfold fiLoop
      rw [if_neg (by norm_num)]

/-- Step sampling on the C5 channel, for arbitrary `t`: the earlier
sample while the clamped time is below 1, the later sample from then
on. -/
theorem c5_step_sample (sl : um_quat → um_quat → ℚ → um_quat)
    (j0 : ung_joint_transform) (t : ℚ) :
    ung_animation_sample sl ⟨1, [c5_channel .step]⟩ t [j0]
      = [{ j0 with translation := if aclamp t 0 1 < 1 then ⟨0, 0, 0⟩ else ⟨10, 0, 0⟩ }] := by
  show List.foldl (sample_channel sl (aclamp t 0 1)) [j0] [c5_channel .step] = _
  simp only [List.foldl]
  unfold sample_channel c5_channel
  simp only [List.length_cons, List.length_nil]
  rw [if_neg (by norm_num), if_neg (by norm_num), if_neg (by norm_num)]
  simp only [find_interval_01]
  unfold interp_vec3
  rw [if_pos (by simp)]
  simp [List.getD]

/-- **C5.**  For the 2-sample vec3 channel with samples `(0, [0,0,0])`
and `(1, [10,0,0])` targeting joint 0's translation: linear sampling at
`t = 1/2` writes `[5,0,0]`; step sampling writes `[0,0,0]` at every
`t < 1` (so in particular at `t = 1/2`) and `[10,0,0]` at every `t ≥ 1`
(clamped) — the step mode holds the earlier sample while `t < t1` and
switches exactly at `t1`.  Holds for every abstracted slerp kernel `sl`
and every prior buffer content `j0`. -/
theorem C5_interpolation_exactness (sl : um_quat → um_quat → ℚ → um_quat)
    (j0 : ung_joint_transform) :
    ung_animation_sample sl ⟨1, [c5_channel .linear]⟩ (1 / 2) [j0]
        = [{ j0 with translation := ⟨5, 0, 0⟩ }]
      ∧ (∀ t : ℚ, t < 1 →
          ung_animation_sample sl ⟨1, [c5_channel .step]⟩ t [j0]
            = [{ j0 with translation := ⟨0, 0, 0⟩ }])
      ∧ (∀ t : ℚ, 1 ≤ t →
          ung_animation_sample sl ⟨1, [c5_channel .step]⟩ t [j0]
            = [{ j0 with translation := ⟨10, 0, 0⟩ }]) := by
  refine ⟨?_, ?_, ?_⟩
  · norm_num [ung_animation_sample, sample_channel, c5_channel, find_interval, fiLoop,
      aclamp, interp_vec3, unlerp, um_vec3_lerp]
    decide
  · intro t ht
    rw [c5_step_sample, if_pos]
    unfold aclamp
    rcases le_total t 0 with h | h
    · rw [max_eq_right h]
      norm_num
    · rw [max_eq_left h, min_eq_left (by linarith)]
      exact ht
  · intro t ht
    rw [c5_step_sample, if_neg]
    unfold aclamp
    rw [max_eq_left (by linarith), min_eq_right ht]
    norm_num

/-- Witness for C5 at concrete inputs (`t = 1/2` and `t = 2`, initial
buffer entry `default_joint_transform`, trivial slerp kernel). -/
theorem C5_interpolation_exactness_witness :
    ung_animation_sample (fun a _ _ => a) ⟨1, [c5_channel .step]⟩ (1 / 2)
        [default_joint_transform]
        = [{ default_joint_transform with translation := ⟨0, 0, 0⟩ }]
      ∧ ung_animation_sample (fun a _ _ => a) ⟨1, [c5_channel .step]⟩ 2
          [default_joint_transform]
          = [{ default_joint_transform with translation := ⟨10, 0, 0⟩ }] :=
  ⟨(C5_interpolation_exactness (fun a _ _ => a) default_joint_transform).2.1 (1 / 2)
      (by norm_num),
    (C5_interpolation_exactness (fun a _ _ => a) default_joint_transform).2.2 2
      (by norm_num)⟩

/-! ### C6 -/

/-- **C6.**  Boundary behavior of sampling: (i) sampling at any `t < 0`
produces the same buffer as sampling at `t = 0`, and (ii) sampling at
any `t > duration` the same buffer as at `t = duration` (the time is
clamped up front; `0 ≤ duration` is the precondition of the C `clamp`'s
assertion); (iii) a channel with exactly one sample writes the same
result at every time, namely (iv) its stored sample value, unchanged,
for the matching sampler/DOF combinations; (v) the interval search
returns the first interval whenever `t ≤ times[0]` and (vi) the last
interval whenever `t ≥ times[last]` (never extrapolating; the
`times[0] < times[last]` hypothesis is implied by the strictly-ascending
times asserted at creation). -/
theorem C6_sampling_clamping_and_single_sample :
    (∀ (sl : um_quat → um_quat → ℚ → um_quat) (anim : Animation) (t : ℚ)
        (joints : List ung_joint_transform),
        0 ≤ anim.duration_s → t < 0 →
        ung_animation_sample sl anim t joints = ung_animation_sample sl anim 0 joints)
    ∧ (∀ (sl : um_quat → um_quat → ℚ → um_quat) (anim : Animation) (t : ℚ)
        (joints : List ung_joint_transform),
        0 ≤ anim.duration_s → anim.duration_s < t →
        ung_animation_sample sl anim t joints
          = ung_animation_sample sl anim anim.duration_s joints)
    ∧ (∀ (sl : um_quat → um_quat → ℚ → um_quat) (ch : AnimationChannel) (t u : ℚ)
        (joints : List ung_joint_transform),
        ch.times.length = 1 →
        sample_channel sl t joints ch = sample_channel sl u joints ch)
    ∧ (∀ (sl : um_quat → um_quat → ℚ → um_quat) (ch : AnimationChannel) (t : ℚ)
        (joints : List ung_joint_transform),
        ch.times.length = 1 → ch.key.joint_index < joints.length →
        (ch.sampler_type = .vec3 → ch.key.dof = .translation →
          sample_channel sl t joints ch
            = joints.set ch.key.joint_index
                { joints.getD ch.key.joint_index default_joint_transform with
                  translation := ch.values_vec3.getD 0 ⟨0, 0, 0⟩ })
        ∧ (ch.sampler_type = .vec3 → ch.key.dof = .scale →
          sample_channel sl t joints ch
            = joints.set ch.key.joint_index
                { joints.getD ch.key.joint_index default_joint_transform with
                  scale := ch.values_vec3.getD 0 ⟨0, 0, 0⟩ })
        ∧ (ch.sampler_type = .quat → ch.key.dof = .rotation →
          sample_channel sl t joints ch
            = joints.set ch.key.joint_index
                { joints.getD ch.key.joint_index default_joint_transform with
                  rotation := ch.values_quat.getD 0 ⟨0, 0, 0, 0⟩ }))
    ∧ (∀ (times : List ℚ) (t : ℚ), t ≤ times.getD 0 0 → find_interval times t = 0)
    ∧ (∀ (times : List ℚ) (t : ℚ),
        times.getD 0 0 < times.getD (times.length - 1) 0 →
        times.getD (times.length - 1) 0 ≤ t →
        find_interval times t = times.length - 2) := by
  refine ⟨?_, ?_, ?_, ?_, ?_, ?_⟩
  · intro sl anim t joints hd ht
    unfold ung_animation_sample
    have hc : aclamp t 0 anim.duration_s = aclamp 0 0 anim.duration_s := by
      unfold aclamp
      rw [max_eq_right ht.le, max_self]
    rw [hc]
  · intro sl anim t joints hd htd
    unfold ung_animation_sample
    have hc : aclamp t 0 anim.duration_s = aclamp anim.duration_s 0 anim.duration_s := by
      unfold aclamp
      rw [max_eq_left (by linarith), min_eq_right htd.le, max_eq_left hd, min_self]
    rw [hc]
  · intro sl ch t u joints hch
    unfold sample_channel
    by_cases hj : ch.key.joint_index ≥ joints.length
    · rw [if_pos hj, if_pos hj]
    · rw [if_neg hj, if_neg hj, hch]
      norm_num
  · intro sl ch t joints hch hj
    refine ⟨?_, ?_, ?_⟩ <;> intro hsam hdof <;>
      · unfold sample_channel
        rw [if_neg (by omega), hch, hsam, hdof]
        norm_num
  · intro times t h
    unfold find_interval
    rw [if_pos h]
  · intro times t h1 h2
    unfold find_interval
    rw [if_neg (not_le.mpr (lt_of_lt_of_le h1 h2)), if_pos h2]

/-- Witness for C6 at concrete inputs: sampling the concrete linear
animation at `t = -1` equals sampling at `t = 0`, and `find_interval`
on `[0, 1]` at `t = 5` returns the last interval `0 = 2 - 2`. -/
theorem C6_sampling_clamping_and_single_sample_witness :
    ung_animation_sample (fun a _ _ => a) ⟨1, [c5_channel .linear]⟩ (-1)
        [default_joint_transform]
        = ung_animation_sample (fun a _ _ => a) ⟨1, [c5_channel .linear]⟩ 0
            [default_joint_transform]
      ∧ find_interval [0, 1] 5 = [(0 : ℚ), 1].length - 2 :=
  ⟨C6_sampling_clamping_and_single_sample.1 (fun a _ _ => a) ⟨1, [c5_channel .linear]⟩
      (-1) [default_joint_transform] (by norm_num) (by norm_num),
    C6_sampling_clamping_and_single_sample.2.2.2.2.2 [0, 1] 5 (by norm_num) (by norm_num)⟩

/-! ### C10 -/

theorem dof_eq_refl (a : ung_joint_transform) (d : ung_joint_dof) : dof_eq a a d := by
  cases d <;> simp [dof_eq]

theorem dof_eq_trans {a b c : ung_joint_transform} {d : ung_joint_dof}
    (h1 : dof_eq a b d) (h2 : dof_eq b c d) : dof_eq a c d := by
  cases d <;> simp [dof_eq] at * <;> simp [h1, h2]

theorem sample_channel_length (sl : um_quat → um_quat → ℚ → um_quat) (t : ℚ)
    (joints : List ung_joint_transform) (ch : AnimationChannel) :
    (sample_channel sl t joints ch).length = joints.length := by
  unfold sample_channel
  repeat' split
  all_goals simp [List.length_set]

theorem set_tr_preserves (joints : List ung_joint_transform) (j idx : Nat) (v : um_vec3)
    (d : ung_joint_dof) (hd : d ≠ .translation) :
    dof_eq ((joints.set idx
        { joints.getD idx default_joint_transform with translation := v }).getD j
          default_joint_transform)
      (joints.getD j default_joint_transform) d := by
  by_cases hji : idx = j
  · subst hji
    by_cases hlt : idx < joints.length
    · rw [getD_set_self _ _ hlt]
      cases d <;> simp [dof_eq] at *
    · rw [List.set_eq_of_length_le (by omega)]
      exact dof_eq_refl _ _
  · rw [getD_set_ne _ hji]
    exact dof_eq_refl _ _

theorem set_sc_preserves (joints : List ung_joint_transform) (j idx : Nat) (v : um_vec3)
    (d : ung_joint_dof) (hd : d ≠ .scale) :
    dof_eq ((joints.set idx
        { joints.getD idx default_joint_transform with scale := v }).getD j
          default_joint_transform)
      (joints.getD j default_joint_transform) d := by
  by_cases hji : idx = j
  · subst hji
    by_cases hlt : idx < joints.length
    · rw [getD_set_self _ _ hlt]
      cases d <;> simp [dof_eq] at *
    · rw [List.set_eq_of_length_le (by omega)]
      exact dof_eq_refl _ _
  · rw [getD_set_ne _ hji]
    exact dof_eq_refl _ _

theorem set_ro_preserves (joints : List ung_joint_transform) (j idx : Nat) (q : um_quat)
    (d : ung_joint_dof) (hd : d ≠ .rotation) :
    dof_eq ((joints.set idx
        { joints.getD idx default_joint_transform with rotation := q }).getD j
          default_joint_transform)
      (joints.getD j default_joint_transform) d := by
  by_cases hji : idx = j
  · subst hji
    by_cases hlt : idx < joints.length
    · rw [getD_set_self _ _ hlt]
      cases d <;> simp [dof_eq] at *
    · rw [List.set_eq_of_length_le (by omega)]
      exact dof_eq_refl _ _
  · rw [getD_set_ne _ hji]
    exact dof_eq_refl _ _

theorem sample_channel_preserves (sl : um_quat → um_quat → ℚ → um_quat) (t : ℚ)
    (joints : List ung_joint_transform) (ch : AnimationChannel) (j : Nat)
    (d : ung_joint_dof) (hno : ¬ channel_touches ch joints.length j d) :
    dof_eq ((sample_channel sl t joints ch).getD j default_joint_transform)
      (joints.getD j default_joint_transform) d := by
  unfold sample_channel
  by_cases hjr : ch.key.joint_index ≥ joints.length
  · rw [if_pos hjr]
    exact dof_eq_refl _ _
  · rw [if_neg hjr]
    push_neg at hjr
    by_cases h0 : ch.times.length = 0
    · rw [if_pos h0]
      exact dof_eq_refl _ _
    · rw [if_neg h0]
      have hs1 : 1 ≤ ch.times.length := by omega
      by_cases hji : ch.key.joint_index = j
      · by_cases h1 : ch.times.length = 1
        · rw [if_pos h1]
          cases hsam : ch.sampler_type with
          | invalid => exact dof_eq_refl _ _
          | vec3 =>
            cases hdof : ch.key.dof with
            | translation =>
              by_cases hd : d = ung_joint_dof.translation
              · subst hd
                exact absurd ⟨hji, by omega, hs1, hdof, Or.inl ⟨hsam, Or.inl rfl⟩⟩ hno
              · exact set_tr_preserves _ _ _ _ _ hd
            | scale =>
              by_cases hd : d = ung_joint_dof.scale
              · subst hd
                exact absurd ⟨hji, by omega, hs1, hdof, Or.inl ⟨hsam, Or.inr rfl⟩⟩ hno
              · exact set_sc_preserves _ _ _ _ _ hd
            | rotation => exact dof_eq_refl _ _
            | invalid => exact dof_eq_refl _ _
          | quat =>
            cases hdof : ch.key.dof with
            | rotation =>
              by_cases hd : d = ung_joint_dof.rotation
              · subst hd
                exact absurd ⟨hji, by omega, hs1, hdof, Or.inr ⟨hsam, rfl⟩⟩ hno
              · exact set_ro_preserves _ _ _ _ _ hd
            | translation => exact dof_eq_refl _ _
            | scale => exact dof_eq_refl _ _
            | invalid => exact dof_eq_refl _ _
        · rw [if_neg h1]
          cases hsam : ch.sampler_type with
          | invalid => exact dof_eq_refl _ _
          | vec3 =>
            cases hdof : ch.key.dof with
            | translation =>
              by_cases hd : d = ung_joint_dof.translation
              · subst hd
                exact absurd ⟨hji, by omega, hs1, hdof, Or.inl ⟨hsam, Or.inl rfl⟩⟩ hno
              · exact set_tr_preserves _ _ _ _ _ hd
            | scale =>
              by_cases hd : d = ung_joint_dof.scale
              · subst hd
                exact absurd ⟨hji, by omega, hs1, hdof, Or.inl ⟨hsam, Or.inr rfl⟩⟩ hno
              · exact set_sc_preserves _ _ _ _ _ hd
            | rotation => exact dof_eq_refl _ _
            | invalid => exact dof_eq_refl _ _
          | quat =>
            cases hdof : ch.key.dof with
            | rotation =>
              by_cases hd : d = ung_joint_dof.rotation
              · subst hd
                exact absurd ⟨hji, by omega, hs1, hdof, Or.inr ⟨hsam, rfl⟩⟩ hno
              · exact set_ro_preserves _ _ _ _ _ hd
            | translation => exact dof_eq_refl _ _
            | scale => exact dof_eq_refl _ _
            | invalid => exact dof_eq_refl _ _
      · have hpres : ∀ (upd : ung_joint_transform),
            dof_eq ((joints.set ch.key.joint_index upd).getD j default_joint_transform)
              (joints.getD j default_joint_transform) d := by
          intro upd
          rw [getD_set_ne _ hji]
          exact dof_eq_refl _ _
        by_cases h1 : ch.times.length = 1
        · rw [if_pos h1]
          cases ch.sampler_type with
          | invalid => exact dof_eq_refl _ _
          | vec3 =>
            cases ch.key.dof with
            | translation => exact hpres _
            | scale => exact hpres _
            | rotation => exact dof_eq_refl _ _
            | invalid => exact dof_eq_refl _ _
          | quat =>
            cases ch.key.dof with
            | rotation => exact hpres _
            | translation => exact dof_eq_refl _ _
            | scale => exact dof_eq_refl _ _
            | invalid => exact dof_eq_refl _ _
        · rw [if_neg h1]
          cases ch.sampler_type with
          | invalid => exact dof_eq_refl _ _
          | vec3 =>
            cases ch.key.dof with
            | translation => exact hpres _
            | scale => exact hpres _
            | rotation => exact dof_eq_refl _ _
            | invalid => exact dof_eq_refl _ _
          | quat =>
            cases ch.key.dof with
            | rotation => exact hpres _
            | translation => exact dof_eq_refl _ _
            | scale => exact dof_eq_refl _ _
            | invalid => exact dof_eq_refl _ _

theorem sample_fold (sl : um_quat → um_quat → ℚ → um_quat) (tc : ℚ)
    (chs : List AnimationChannel) :
    ∀ (joints : List ung_joint_transform) (j : Nat) (d : ung_joint_dof),
    (∀ ch ∈ chs, ¬ channel_touches ch joints.length j d) →
    (List.foldl (sample_channel sl tc) joints chs).length = joints.length
      ∧ dof_eq ((List.foldl (sample_channel sl tc) joints chs).getD j
            default_joint_transform)
          (joints.getD j default_joint_transform) d := by
  induction chs with
  | nil => exact fun joints j d _ => ⟨rfl, dof_eq_refl _ _⟩
  | cons ch chs ih =>
    intro joints j d hno
    have hlen := sample_channel_length sl tc joints ch
    have hb := sample_channel_preserves sl tc joints ch j d
      (hno ch (List.mem_cons_self _ _))
    have hrec := ih (sample_channel sl tc joints ch) j d
      (fun c hc => by rw [hlen]; exact hno c (List.mem_cons_of_mem _ hc))
    simp only [List.foldl]
    exact ⟨hrec.1.trans hlen, dof_eq_trans hrec.2 hb⟩

/-- **C10.**  `ung_animation_sample` is a partial overwrite of the pose
buffer: it preserves the buffer length, and every `(joint, dof)` entry
that is not targeted by some channel with in-range joint index, at least
one sample, and a sampler type matching the degree of freedom
(`channel_touches`) retains its prior value — for every time, prior
buffer content and abstracted slerp kernel. -/
theorem C10_sample_writes_only_targeted_entries
    (sl : um_quat → um_quat → ℚ → um_quat) (anim : Animation) (t : ℚ)
    (joints : List ung_joint_transform) (j : Nat) (d : ung_joint_dof)
    (hno : ∀ ch ∈ anim.channels, ¬ channel_touches ch joints.length j d) :
    (ung_animation_sample sl anim t joints).length = joints.length
      ∧ dof_eq ((ung_animation_sample sl anim t joints).getD j default_joint_transform)
          (joints.getD j default_joint_transform) d :=
  sample_fold sl (aclamp t 0 anim.duration_s) anim.channels joints j d hno

/-- Witness for C10: the concrete translation-channel animation leaves
joint 0's rotation (an untargeted DOF) unchanged. -/
theorem C10_sample_writes_only_targeted_entries_witness :
    (ung_animation_sample (fun a _ _ => a) ⟨1, [c5_channel .linear]⟩ (1 / 2)
        [default_joint_transform]).length = [default_joint_transform].length
      ∧ dof_eq ((ung_animation_sample (fun a _ _ => a) ⟨1, [c5_channel .linear]⟩ (1 / 2)
            [default_joint_transform]).getD 0 default_joint_transform)
          ([default_joint_transform].getD 0 default_joint_transform) .rotation :=
  C10_sample_writes_only_targeted_entries (fun a _ _ => a)
    ⟨1, [c5_channel .linear]⟩ (1 / 2) [default_joint_transform] 0 .rotation (by decide)

/-! ### C7 -/

theorem ratSqrt_one : ratSqrt 1 = 1 := by
  unfold ratSqrt
  norm_num

/-- What `ung_blend_poses` does to the rotation of a single-joint pose
pair, read off structurally (the `sgn` weight flip included). -/
theorem blend_single_rotation (a b : ung_joint_transform) (wa wb : ℚ)
    (dflt : ung_joint_transform) :
    ((ung_blend_poses [a] wa [b] wb none 1).getD 0 dflt).rotation
      = um_quat_normalized
          (qmix a.rotation wa b.rotation
            ((wb * 1) * (if 0 ≤ qdot a.rotation b.rotation then 1 else -1))) := rfl

/-- **C7** fails on the code.  The dot-product sign flip is present
(`qdot q (-q) = -1 < 0` flips `b`'s blend weight), and the weighted sums
cancel nothing — but `qmix` builds its result with a braced initializer
whose first component is the *w* mix while `um_quat`'s fields are
declared `x, y, z, w`: blending a unit rotation `q` with `-q` at
weights 0.5/0.5 (mask defaulted to all-ones) therefore yields the
cyclically permuted quaternion `(q.w, q.x, q.y, q.z)`, which in general
represents a different rotation than `q` (for `q` = identity it is a
180-degree rotation about the x axis; see the witness). -/
theorem C7_blend_of_opposite_quats_is_permuted (q : um_quat) (ta sa tb sb : um_vec3)
    (hunit : q.x * q.x + q.y * q.y + q.z * q.z + q.w * q.w = 1) :
    ((ung_blend_poses [⟨ta, q, sa⟩] (1 / 2)
          [⟨tb, ⟨-q.x, -q.y, -q.z, -q.w⟩, sb⟩] (1 / 2) none 1).getD 0
        default_joint_transform).rotation
      = ⟨q.w, q.x, q.y, q.z⟩ := by
  rw [blend_single_rotation]
  simp only
  have hdot : qdot q ⟨-q.x, -q.y, -q.z, -q.w⟩ = -1 := by
    unfold qdot
    simp only
    nlinarith [hunit]
  rw [hdot, if_neg (by norm_num)]
  have hmix : qmix q (1 / 2) ⟨-q.x, -q.y, -q.z, -q.w⟩ (1 / 2 * 1 * -1)
      = ⟨q.w, q.x, q.y, q.z⟩ := by
    unfold qmix
    simp only
    have h1 : q.w * (1 / 2) + -q.w * (1 / 2 * 1 * -1) = q.w := by ring
    have h2 : q.x * (1 / 2) + -q.x * (1 / 2 * 1 * -1) = q.x := by ring
    have h3 : q.y * (1 / 2) + -q.y * (1 / 2 * 1 * -1) = q.y := by ring
    have h4 : q.z * (1 / 2) + -q.z * (1 / 2 * 1 * -1) = q.z := by ring
    rw [h1, h2, h3, h4]
  rw [hmix]
  unfold um_quat_normalized um_quat_len
  simp only
  rw [show q.w * q.w + q.x * q.x + q.y * q.y + q.z * q.z = 1 by linarith, ratSqrt_one]
  rw [if_neg (by norm_num)]
  simp

/-- Witness for C7 at the failing input `q` = identity `(0,0,0,1)`: the
blended rotation is `(1,0,0,0)` — a 180-degree rotation about x — and
not `±q`, i.e. not the same rotation as `q`. -/
theorem C7_blend_of_opposite_quats_is_permuted_witness :
    ((ung_blend_poses [⟨⟨0, 0, 0⟩, ⟨0, 0, 0, 1⟩, ⟨0, 0, 0⟩⟩] (1 / 2)
          [⟨⟨0, 0, 0⟩, ⟨-0, -0, -0, -1⟩, ⟨0, 0, 0⟩⟩] (1 / 2) none 1).getD 0
        default_joint_transform).rotation
      = ⟨1, 0, 0, 0⟩
    ∧ (⟨1, 0, 0, 0⟩ : um_quat) ≠ ⟨0, 0, 0, 1⟩
    ∧ (⟨1, 0, 0, 0⟩ : um_quat) ≠ ⟨0, 0, 0, -1⟩ :=
  ⟨C7_blend_of_opposite_quats_is_permuted ⟨0, 0, 0, 1⟩ ⟨0, 0, 0⟩ ⟨0, 0, 0⟩ ⟨0, 0, 0⟩
      ⟨0, 0, 0⟩ (by norm_num),
    by decide, by decide⟩

/-! ### C2 -/

theorem ug_length : ∀ (l : List (Joint × ung_joint_transform)) (acc : List um_mat),
    (update_globals l acc).length = acc.length + l.length := by
  intro l
  induction l with
  | nil => intro acc; simp [update_globals]
  | cons jp rest ih =>
    intro acc
    simp only [update_globals]
    rw [ih]
    simp
    omega

theorem ug_front : ∀ (l : List (Joint × ung_joint_transform)) (acc : List um_mat)
    (j : Nat), j < acc.length →
    (update_globals l acc).getD j um_mat_identity = acc.getD j um_mat_identity := by
  intro l
  induction l with
  | nil => intro acc j hj; rfl
  | cons jp rest ih =>
    intro acc j hj
    simp only [update_globals]
    rw [ih _ _ (by simp; omega)]
    exact List.getD_append acc [_] um_mat_identity j hj

theorem getD_append_self (acc : List um_mat) (g : um_mat) :
    (acc ++ [g]).getD acc.length um_mat_identity = g := by
  simp [List.getD_eq_getElem?_getD, List.getElem?_append_right (le_refl acc.length)]

theorem ug_getD : ∀ (l : List (Joint × ung_joint_transform)) (acc : List um_mat)
    (i : Nat), i < l.length →
    (∀ k, k < l.length → 0 ≤ (l.getD k dJP).1.parent_index →
      (l.getD k dJP).1.parent_index.toNat < acc.length + k) →
    (update_globals l acc).getD (acc.length + i) um_mat_identity
      = (if 0 ≤ (l.getD i dJP).1.parent_index then
          um_mat_mul
            ((update_globals l acc).getD (l.getD i dJP).1.parent_index.toNat
              um_mat_identity)
            (get_matrix (l.getD i dJP).2)
        else get_matrix (l.getD i dJP).2) := by
  intro l
  induction l with
  | nil =>
    intro acc i hi
    simp at hi
  | cons jp rest ih =>
    intro acc i hi htopo
    cases i with
    | zero =>
      rw [Nat.add_zero]
      simp only [update_globals, List.getD_cons_zero]
      rw [ug_front _ _ _ (by simp), getD_append_self]
      by_cases hp : 0 ≤ jp.1.parent_index
      · have hplt : jp.1.parent_index.toNat < acc.length := by
          have := htopo 0 (by simp) (by simpa using hp)
          simpa using this
        rw [if_pos hp, if_pos hp]
        congr 1
        rw [ug_front _ _ _ (by simp; omega)]
        exact (List.getD_append acc [_] um_mat_identity _ hplt).symm
      · rw [if_neg hp, if_neg hp]
    | succ i =>
      simp only [update_globals, List.getD_cons_succ]
      have hlen : (acc ++ [if 0 ≤ jp.1.parent_index then
          um_mat_mul (acc.getD jp.1.parent_index.toNat um_mat_identity) (get_matrix jp.2)
        else get_matrix jp.2]).length = acc.length + 1 := by simp
      have hrec := ih (acc ++ [if 0 ≤ jp.1.parent_index then
          um_mat_mul (acc.getD jp.1.parent_index.toNat um_mat_identity) (get_matrix jp.2)
        else get_matrix jp.2]) i (by simpa using hi)
        (by
          intro k hk hp
          rw [hlen]
          have := htopo (k + 1) (by simpa using hk) (by simpa using hp)
          simp only [List.getD_cons_succ] at this
          omega)
      rw [hlen] at hrec
      rw [show acc.length + (i + 1) = acc.length + 1 + i from by omega]
      exact hrec

theorem zip_getD {α β : Type} (l1 : List α) (l2 : List β) (d1 : α) (d2 : β) :
    ∀ (i : Nat), i < l1.length → i < l2.length →
    (l1.zip l2).getD i (d1, d2) = (l1.getD i d1, l2.getD i d2) := by
  induction l1 generalizing l2 with
  | nil => intro i h1 h2; simp at h1
  | cons a l1 ih =>
    intro i h1 h2
    cases l2 with
    | nil => simp at h2
    | cons b l2 =>
      cases i with
      | zero => rfl
      | succ i =>
        simp only [List.zip_cons_cons, List.getD_cons_succ]
        exact ih l2 i (by simpa using h1) (by simpa using h2)

theorem map_getD {α β : Type} (l : List α) (f : α → β) (d : α) (db : β) (i : Nat)
    (h : i < l.length) : (l.map f).getD i db = f (l.getD i d) := by
  rw [List.getD_eq_getElem _ _ (by simpa using h), List.getD_eq_getElem _ _ h]
  simp


/-- The forward-pass recurrence of `ung_skeleton_update_joint_matrices`
for a single joint index, under pose/joint length agreement and
topological order. -/
theorem skeleton_pass_spec (s : Skeleton)
    (hlen : s.joint_transforms.length = s.joints.length)
    (htopo : ∀ k, k < s.joints.length →
      ((s.joints.getD k ⟨um_mat_identity, -1⟩).parent_index : Int) < (k : Int))
    (i : Nat) (hi : i < s.joints.length) :
    ((ung_skeleton_update_joint_matrices s).global_transforms.getD i um_mat_identity
        = (if 0 ≤ (s.joints.getD i ⟨um_mat_identity, -1⟩).parent_index then
            um_mat_mul
              ((ung_skeleton_update_joint_matrices s).global_transforms.getD
                (s.joints.getD i ⟨um_mat_identity, -1⟩).parent_index.toNat
                um_mat_identity)
              (get_matrix (s.joint_transforms.getD i default_joint_transform))
          else get_matrix (s.joint_transforms.getD i default_joint_transform))
      ∧ (ung_skeleton_update_joint_matrices s).joint_matrices.getD i um_mat_identity
          = um_mat_mul
              ((ung_skeleton_update_joint_matrices s).global_transforms.getD i
                um_mat_identity)
              (s.joints.getD i ⟨um_mat_identity, -1⟩).inverse_bind_matrix) := by
    have hzlen : (s.joints.zip s.joint_transforms).length = s.joints.length := by
      simp [List.length_zip, hlen]
    have hzget : ∀ k, k < s.joints.length →
        (s.joints.zip s.joint_transforms).getD k dJP
          = (s.joints.getD k ⟨um_mat_identity, -1⟩,
              s.joint_transforms.getD k default_joint_transform) :=
      fun k hk => zip_getD s.joints s.joint_transforms _ _ k hk (by omega)
    have hzget1 : ∀ k, k < s.joints.length →
        ((s.joints.zip s.joint_transforms).getD k dJP).1
          = s.joints.getD k ⟨um_mat_identity, -1⟩ := by
      intro k hk
      rw [hzget k hk]
    have hzget2 : ∀ k, k < s.joints.length →
        ((s.joints.zip s.joint_transforms).getD k dJP).2
          = s.joint_transforms.getD k default_joint_transform := by
      intro k hk
      rw [hzget k hk]
    constructor
    · have h := ug_getD (s.joints.zip s.joint_transforms) [] i (by omega)
        (by
          intro k hk hp
          rw [hzget1 k (by omega)] at hp ⊢
          have := htopo k (by omega)
          simp only [List.length_nil, Nat.zero_add]
          omega)
      simp only [List.length_nil, Nat.zero_add] at h
      show (update_globals (s.joints.zip s.joint_transforms) []).getD i um_mat_identity = _
      rw [h, hzget1 i hi, hzget2 i hi]
      rfl
    · have hglen : (update_globals (s.joints.zip s.joint_transforms) []).length
          = s.joints.length := by
        rw [ug_length]
        simpa using hzlen
      show ((s.joints.zip
            (update_globals (s.joints.zip s.joint_transforms) [])).map fun jg =>
              um_mat_mul jg.2 jg.1.inverse_bind_matrix).getD i um_mat_identity = _
      rw [map_getD _ _ ((⟨um_mat_identity, -1⟩ : Joint), um_mat_identity) um_mat_identity i
        (by rw [List.length_zip]; omega)]
      have hz2 := zip_getD s.joints
        (update_globals (s.joints.zip s.joint_transforms) []) ⟨um_mat_identity, -1⟩
        um_mat_identity i hi (by omega)
      rw [hz2]
      rfl

/-- Joint 2's and joint 0's global transforms for the concrete 3-joint
topology with parents `[-1, -1, 0]`, expressed in the locals only
(derived from the forward-pass recurrence, not by brute evaluation). -/
theorem C2_concrete_global2 (A B C : um_mat) (p0 p1 p2 : ung_joint_transform) :
    (ung_skeleton_update_joint_matrices
        ⟨[⟨A, -1⟩, ⟨B, -1⟩, ⟨C, 0⟩], [p0, p1, p2], [], [], []⟩).global_transforms.getD 2
        um_mat_identity
      = um_mat_mul (get_matrix p0) (get_matrix p2)
    ∧ (ung_skeleton_update_joint_matrices
        ⟨[⟨A, -1⟩, ⟨B, -1⟩, ⟨C, 0⟩], [p0, p1, p2], [], [], []⟩).global_transforms.getD 0
        um_mat_identity
      = get_matrix p0 := by
  have htopoc : ∀ k,
      k < ((⟨[⟨A, -1⟩, ⟨B, -1⟩, ⟨C, 0⟩], [p0, p1, p2], [], [], []⟩ :
        Skeleton)).joints.length →
      ((((⟨[⟨A, -1⟩, ⟨B, -1⟩, ⟨C, 0⟩], [p0, p1, p2], [], [], []⟩ :
        Skeleton)).joints.getD k ⟨um_mat_identity, -1⟩).parent_index : Int) < (k : Int) := by
    intro k hk
    simp only [List.length_cons, List.length_nil] at hk
    interval_cases k
    · show (-1 : Int) < ((0 : Nat) : Int)
      norm_num
    · show (-1 : Int) < ((1 : Nat) : Int)
      norm_num
    · show (0 : Int) < ((2 : Nat) : Int)
      norm_num
  have h0 := (skeleton_pass_spec
    ⟨[⟨A, -1⟩, ⟨B, -1⟩, ⟨C, 0⟩], [p0, p1, p2], [], [], []⟩ rfl htopoc 0
    (show (0 : Nat) < 3 by norm_num)).1
  have ej0 : ((⟨[⟨A, -1⟩, ⟨B, -1⟩, ⟨C, 0⟩], [p0, p1, p2], [], [], []⟩ :
      Skeleton)).joints.getD 0 ⟨um_mat_identity, -1⟩ = ⟨A, -1⟩ := rfl
  have ep0 : ((⟨A, -1⟩ : Joint)).parent_index = -1 := rfl
  have epose0 : ((⟨[⟨A, -1⟩, ⟨B, -1⟩, ⟨C, 0⟩], [p0, p1, p2], [], [], []⟩ :
      Skeleton)).joint_transforms.getD 0 default_joint_transform = p0 := rfl
  rw [ej0, ep0, if_neg (by norm_num : ¬ (0 : Int) ≤ -1), epose0] at h0
  have h2 := (skeleton_pass_spec
    ⟨[⟨A, -1⟩, ⟨B, -1⟩, ⟨C, 0⟩], [p0, p1, p2], [], [], []⟩ rfl htopoc 2
    (show (2 : Nat) < 3 by norm_num)).1
  have ej2 : ((⟨[⟨A, -1⟩, ⟨B, -1⟩, ⟨C, 0⟩], [p0, p1, p2], [], [], []⟩ :
      Skeleton)).joints.getD 2 ⟨um_mat_identity, -1⟩ = ⟨C, 0⟩ := rfl
  have ep2 : ((⟨C, 0⟩ : Joint)).parent_index = 0 := rfl
  have et : (0 : Int).toNat = 0 := rfl
  have epose2 : ((⟨[⟨A, -1⟩, ⟨B, -1⟩, ⟨C, 0⟩], [p0, p1, p2], [], [], []⟩ :
      Skeleton)).joint_transforms.getD 2 default_joint_transform = p2 := rfl
  rw [ej2, ep2, if_pos (le_refl (0 : Int)), et, epose2, h0] at h2
  exact ⟨h2, h0⟩

/-- **C2.**  `ung_skeleton_update_joint_matrices` satisfies, for every
skeleton whose pose buffer matches the joint count and whose joints are
topologically ordered (`parent_index < i`, the assertion of
`ung_skeleton_create`): joint `i`'s global transform is
`parent_global * local` when it has a parent and `local` for roots,
where `local = get_matrix(pose[i]) = translate * rotate * scale`, and
its skin matrix is `global * inverse_bind_matrix` — all produced by the
single forward pass.  In particular, for a 3-joint skeleton with
parents `[-1, -1, 0]` (joint 2's parent is joint 0, joint 1 a separate
root), joint 2's global transform is `global(0) * local(2)` and is
independent of joint 1's pose. -/
theorem C2_skeleton_forward_pass :
    (∀ (s : Skeleton), s.joint_transforms.length = s.joints.length →
      (∀ k, k < s.joints.length →
        ((s.joints.getD k ⟨um_mat_identity, -1⟩).parent_index : Int) < (k : Int)) →
      ∀ i, i < s.joints.length →
      ((ung_skeleton_update_joint_matrices s).global_transforms.getD i um_mat_identity
          = (if 0 ≤ (s.joints.getD i ⟨um_mat_identity, -1⟩).parent_index then
              um_mat_mul
                ((ung_skeleton_update_joint_matrices s).global_transforms.getD
                  (s.joints.getD i ⟨um_mat_identity, -1⟩).parent_index.toNat
                  um_mat_identity)
                (get_matrix (s.joint_transforms.getD i default_joint_transform))
            else get_matrix (s.joint_transforms.getD i default_joint_transform))
        ∧ (ung_skeleton_update_joint_matrices s).joint_matrices.getD i um_mat_identity
            = um_mat_mul
                ((ung_skeleton_update_joint_matrices s).global_transforms.getD i
                  um_mat_identity)
                (s.joints.getD i ⟨um_mat_identity, -1⟩).inverse_bind_matrix))
    ∧ (∀ (A B C : um_mat) (p0 p1 p1' p2 : ung_joint_transform),
      (ung_skeleton_update_joint_matrices
          ⟨[⟨A, -1⟩, ⟨B, -1⟩, ⟨C, 0⟩], [p0, p1, p2], [], [], []⟩).global_transforms.getD 2
          um_mat_identity
        = um_mat_mul
            ((ung_skeleton_update_joint_matrices
                ⟨[⟨A, -1⟩, ⟨B, -1⟩, ⟨C, 0⟩], [p0, p1, p2], [], [], []⟩).global_transforms.getD
              0 um_mat_identity)
            (get_matrix p2)
      ∧ (ung_skeleton_update_joint_matrices
            ⟨[⟨A, -1⟩, ⟨B, -1⟩, ⟨C, 0⟩], [p0, p1, p2], [], [], []⟩).global_transforms.getD 2
            um_mat_identity
          = (ung_skeleton_update_joint_matrices
              ⟨[⟨A, -1⟩, ⟨B, -1⟩, ⟨C, 0⟩], [p0, p1', p2], [], [], []⟩).global_transforms.getD 2
              um_mat_identity) := by
  refine ⟨fun s hlen htopo i hi => skeleton_pass_spec s hlen htopo i hi, ?_⟩
  intro A B C p0 p1 p1' p2
  have ha := C2_concrete_global2 A B C p0 p1 p2
  have hb := C2_concrete_global2 A B C p0 p1' p2
  refine ⟨?_, ha.1.trans hb.1.symm⟩
  rw [ha.1, ha.2]

/-- Witness for C2 at a concrete 3-joint skeleton (identity bind
matrices, default poses), instantiating the general forward-pass clause
at joint 2. -/
theorem C2_skeleton_forward_pass_witness :
    (ung_skeleton_update_joint_matrices
        ⟨[⟨um_mat_identity, -1⟩, ⟨um_mat_identity, -1⟩, ⟨um_mat_identity, 0⟩],
          [default_joint_transform, default_joint_transform, default_joint_transform],
          [], [], []⟩).global_transforms.getD 2 um_mat_identity
      = (if 0 ≤ (([⟨um_mat_identity, -1⟩, ⟨um_mat_identity, -1⟩,
            (⟨um_mat_identity, 0⟩ : Joint)]).getD 2 ⟨um_mat_identity, -1⟩).parent_index
          then
            um_mat_mul
              ((ung_skeleton_update_joint_matrices
                  ⟨[⟨um_mat_identity, -1⟩, ⟨um_mat_identity, -1⟩, ⟨um_mat_identity, 0⟩],
                    [default_joint_transform, default_joint_transform,
                      default_joint_transform],
                    [], [], []⟩).global_transforms.getD
                (([⟨um_mat_identity, -1⟩, ⟨um_mat_identity, -1⟩,
                    (⟨um_mat_identity, 0⟩ : Joint)]).getD 2
                    ⟨um_mat_identity, -1⟩).parent_index.toNat um_mat_identity)
              (get_matrix
                ([default_joint_transform, default_joint_transform,
                    default_joint_transform].getD 2 default_joint_transform))
          else
            get_matrix
              ([default_joint_transform, default_joint_transform,
                  default_joint_transform].getD 2 default_joint_transform)) :=
  ((C2_skeleton_forward_pass.1
      ⟨[⟨um_mat_identity, -1⟩, ⟨um_mat_identity, -1⟩, ⟨um_mat_identity, 0⟩],
        [default_joint_transform, default_joint_transform, default_joint_transform],
        [], [], []⟩ rfl
      (by decide) 2 (by decide)).1)


/-! ### C3 -/

theorem glm_parent (t : Transform) : (get_local_matrix t).2.parent = t.parent := by
  unfold get_local_matrix
  split <;> rfl

theorem tset_ne (m : TStore) (k : Nat) (t : Transform) {j : Nat} (h : j ≠ k) :
    tset m k t j = m j := by
  unfold tset
  rw [if_neg h]

theorem gwm_succ_parent (fuel : Nat) (m : TStore) (key pk : Nat)
    (hp : (m key).parent = pk) (hpk : pk ≠ 0) :
    (get_world_matrix (fuel + 1) m key).1
      = um_mat_mul
          (get_world_matrix fuel (tset m key (get_local_matrix (m key)).2) pk).1
          (get_local_matrix (m key)).1 := by
  simp only [get_world_matrix]
  have hp2 : (get_local_matrix (m key)).2.parent = pk := by rw [glm_parent, hp]
  rw [hp2, if_pos hpk]

theorem gwm_succ_root (fuel : Nat) (m : TStore) (key : Nat)
    (hp : (m key).parent = 0) :
    (get_world_matrix (fuel + 1) m key).1 = (get_local_matrix (m key)).1 := by
  simp only [get_world_matrix]
  have hp2 : (get_local_matrix (m key)).2.parent = 0 := by rw [glm_parent, hp]
  rw [hp2]
  simp

theorem c3_world_chain (m : TStore) (rk mk lk : Nat)
    (hrk0 : rk ≠ 0) (hmk0 : mk ≠ 0)
    (hlm : lk ≠ mk) (hlr : lk ≠ rk) (hmr : mk ≠ rk)
    (hpl : (m lk).parent = mk) (hpm : (m mk).parent = rk) (hpr : (m rk).parent = 0) :
    (get_world_matrix 3 m lk).1
      = um_mat_mul
          (um_mat_mul (get_local_matrix (m rk)).1 (get_local_matrix (m mk)).1)
          (get_local_matrix (m lk)).1 := by
  rw [show (3 : Nat) = 2 + 1 from rfl, gwm_succ_parent 2 m lk mk hpl hmk0]
  have e1 : tset m lk (get_local_matrix (m lk)).2 mk = m mk :=
    tset_ne _ _ _ (Ne.symm hlm)
  rw [show (2 : Nat) = 1 + 1 from rfl,
    gwm_succ_parent 1 (tset m lk (get_local_matrix (m lk)).2) mk rk
      (by rw [e1, hpm]) hrk0, e1]
  have e2 : tset (tset m lk (get_local_matrix (m lk)).2) mk
      (get_local_matrix (m mk)).2 rk = m rk := by
    rw [tset_ne _ _ _ (Ne.symm hmr), tset_ne _ _ _ (Ne.symm hlr)]
  rw [show (1 : Nat) = 0 + 1 from rfl,
    gwm_succ_root 0 _ rk (by rw [e2, hpr]), e2]

/-- **C3.**  For every 3-deep parent chain `root <- mid <- leaf` (three
distinct non-null handles with the corresponding parent links), the
world matrix of the leaf is `local(root) * local(mid) * local(leaf)`;
and each node's local matrix is `translate * rotate * scale` in that
multiplication order, recomputed iff the dirty flag is set (then cached
with the flag cleared) and returned from the cache otherwise. -/
theorem C3_world_matrix_composition :
    (∀ (m : TStore) (rk mk lk : Nat), rk ≠ 0 → mk ≠ 0 →
      lk ≠ mk → lk ≠ rk → mk ≠ rk →
      (m lk).parent = mk → (m mk).parent = rk → (m rk).parent = 0 →
      (get_world_matrix 3 m lk).1
        = um_mat_mul
            (um_mat_mul (get_local_matrix (m rk)).1 (get_local_matrix (m mk)).1)
            (get_local_matrix (m lk)).1)
    ∧ (∀ t : Transform,
      (t.local_matrix_dirty = true →
        get_local_matrix t
          = (um_mat_mul
              (um_mat_mul (um_mat_translate t.position) (um_mat_from_quat t.orientation))
              (um_mat_scale t.scale),
            { t with
              local_matrix :=
                um_mat_mul
                  (um_mat_mul (um_mat_translate t.position)
                    (um_mat_from_quat t.orientation))
                  (um_mat_scale t.scale)
              local_matrix_dirty := false }))
      ∧ (t.local_matrix_dirty = false → get_local_matrix t = (t.local_matrix, t))) := by
  constructor
  · exact fun m rk mk lk h1 h2 h3 h4 h5 h6 h7 h8 =>
      c3_world_chain m rk mk lk h1 h2 h3 h4 h5 h6 h7 h8
  · intro t
    constructor <;> intro h <;> unfold get_local_matrix <;> simp [h]

/-- Witness for C3 on the concrete chain `c3_store` (keys 1, 2, 3). -/
theorem C3_world_matrix_composition_witness :
    (get_world_matrix 3 c3_store 3).1
      = um_mat_mul
          (um_mat_mul (get_local_matrix (c3_store 1)).1 (get_local_matrix (c3_store 2)).1)
          (get_local_matrix (c3_store 3)).1 :=
  C3_world_matrix_composition.1 c3_store 1 2 3 (by norm_num) (by norm_num)
    (by norm_num) (by norm_num) (by norm_num) rfl rfl rfl

/-! ### C4 -/

theorem headD_append {α : Type} (l1 l2 : List α) (d : α) :
    (l1 ++ l2).headD d = l1.headD (l2.headD d) := by
  cases l1 <;> rfl

theorem headD_mem {α : Type} (l : List α) (d : α) (h : l ≠ []) : l.headD d ∈ l := by
  cases l with
  | nil => exact absurd rfl h
  | cons a l => exact List.mem_cons_self a l

theorem getLastD_mem {α : Type} : ∀ (l : List α) (d : α), l ≠ [] → l.getLastD d ∈ l
  | [], _, h => absurd rfl h
  | [a], d, _ => by simp [List.getLastD_cons]
  | a :: b :: l, d, _ => by
      have h2 := getLastD_mem (b :: l) a (by simp)
      simp only [List.getLastD_cons] at h2 ⊢
      exact List.mem_cons_of_mem a h2

theorem getLastD_cons₂ (a b : Nat) (l : List Nat) (d : Nat) :
    (a :: b :: l).getLastD d = (b :: l).getLastD d := rfl

theorem sibChain_congr (m₁ m₂ : TStore) (l : List Nat) (z : Nat)
    (h : ∀ k ∈ l, (m₂ k).next_sibling = (m₁ k).next_sibling) :
    sibChain m₁ l z → sibChain m₂ l z := by
  induction l with
  | nil => intro _; trivial
  | cons a l ih =>
    intro hs
    exact ⟨(h a (List.mem_cons_self a l)).trans hs.1,
      ih (fun k hk => h k (List.mem_cons_of_mem a hk)) hs.2⟩

theorem sibChain_append (m : TStore) (l1 l2 : List Nat) (z : Nat) :
    sibChain m (l1 ++ l2) z ↔ sibChain m l1 (l2.headD z) ∧ sibChain m l2 z := by
  induction l1 with
  | nil => simp [sibChain]
  | cons a l1 ih =>
    rw [List.cons_append]
    constructor
    · intro hs
      have h1 : (m a).next_sibling = (l1 ++ l2).headD z := hs.1
      rw [headD_append] at h1
      have h2 := ih.mp hs.2
      exact ⟨⟨h1, h2.1⟩, h2.2⟩
    · intro hs
      have h1 : (m a).next_sibling = l1.headD (l2.headD z) := hs.1.1
      rw [← headD_append] at h1
      exact ⟨h1, ih.mpr ⟨hs.1.2, hs.2⟩⟩

theorem sibChain_update_last (m m' : TStore) :
    ∀ (l : List Nat) (z' : Nat), l ≠ [] → l.Nodup →
      (∀ k ∈ l, k ≠ l.getLastD 0 → (m' k).next_sibling = (m k).next_sibling) →
      (m' (l.getLastD 0)).next_sibling = z' →
      ∀ z, sibChain m l z → sibChain m' l z'
  | [], _, hl, _, _, _, _, _ => absurd rfl hl
  | [a], z', _, _, _, hlast, z, _ => ⟨hlast, trivial⟩
  | a :: b :: l', z', _, hnd, h, hlast, z, hs => by
      have hgl : (a :: b :: l').getLastD 0 = (b :: l').getLastD 0 := rfl
      have hmem : (b :: l').getLastD 0 ∈ b :: l' := getLastD_mem _ _ (by simp)
      have ha : a ≠ (a :: b :: l').getLastD 0 := by
        rw [hgl]
        intro hcontra
        exact (List.nodup_cons.mp hnd).1 (hcontra ▸ hmem)
      refine ⟨?_, ?_⟩
      · rw [h a (List.mem_cons_self _ _) ha]
        exact hs.1
      · exact sibChain_update_last m m' (b :: l') z' (by simp)
          (List.nodup_cons.mp hnd).2
          (fun k hk hkl => h k (List.mem_cons_of_mem a hk) (hgl ▸ hkl))
          (hgl ▸ hlast) z hs.2

theorem chain_zero (m : TStore) (fuel : Nat) : chain m fuel 0 = [] := by
  cases fuel <;> rfl

theorem chain_succ (m : TStore) (fuel k : Nat) (hk : k ≠ 0) :
    chain m (fuel + 1) k = k :: chain m fuel (m k).next_sibling := by
  cases k with
  | zero => exact absurd rfl hk
  | succ k => rfl

theorem chain_eq (m : TStore) :
    ∀ (l : List Nat) (fuel : Nat), 0 ∉ l → sibChain m l 0 →
      l.length ≤ fuel → chain m fuel (l.headD 0) = l
  | [], fuel, _, _, _ => chain_zero m fuel
  | a :: l, fuel, h0, hs, hf => by
      cases fuel with
      | zero => exact absurd hf (by simp)
      | succ fuel =>
        have ha : a ≠ 0 := fun h => h0 (by rw [← h]; exact List.mem_cons_self a l)
        show chain m (fuel + 1) a = a :: l
        rw [chain_succ m fuel a ha]
        have hnx : (m a).next_sibling = l.headD 0 := hs.1
        rw [hnx, chain_eq m l fuel (fun h => h0 (List.mem_cons_of_mem a h)) hs.2
          (Nat.le_of_succ_le_succ hf)]

theorem tset_self (m : TStore) (k : Nat) (t : Transform) : tset m k t k = t := by
  unfold tset; simp

theorem tset_keep_parent (m : TStore) (k : Nat) (t : Transform)
    (h : t.parent = (m k).parent) (j : Nat) :
    ((tset m k t) j).parent = (m j).parent := by
  simp only [tset]
  split
  · subst_vars; exact h
  · rfl

theorem tset_keep_fc (m : TStore) (k : Nat) (t : Transform)
    (h : t.first_child = (m k).first_child) (j : Nat) :
    ((tset m k t) j).first_child = (m j).first_child := by
  simp only [tset]
  split
  · subst_vars; exact h
  · rfl

theorem tset_keep_next (m : TStore) (k : Nat) (t : Transform)
    (h : t.next_sibling = (m k).next_sibling) (j : Nat) :
    ((tset m k t) j).next_sibling = (m j).next_sibling := by
  simp only [tset]
  split
  · subst_vars; exact h
  · rfl

theorem tset_set_next (m : TStore) (k v j : Nat) :
    ((tset m k { m k with next_sibling := v }) j).next_sibling
      = if j = k then v else (m j).next_sibling := by
  simp only [tset]
  split
  · rfl
  · rfl

theorem link_parent (m : TStore) (p n j : Nat) :
    ((link m p n) j).parent = (m j).parent := by
  simp only [link]
  split
  · rfl
  · split
    · exact tset_keep_parent m n { m n with prev_sibling := 0 } rfl j
    · split
      · exact tset_keep_parent m p { m p with next_sibling := 0 } rfl j
      · rw [tset_keep_parent (tset m p { m p with next_sibling := n }) n
            { (tset m p { m p with next_sibling := n }) n with prev_sibling := p } rfl j,
          tset_keep_parent m p { m p with next_sibling := n } rfl j]

theorem link_fc (m : TStore) (p n j : Nat) :
    ((link m p n) j).first_child = (m j).first_child := by
  simp only [link]
  split
  · rfl
  · split
    · exact tset_keep_fc m n { m n with prev_sibling := 0 } rfl j
    · split
      · exact tset_keep_fc m p { m p with next_sibling := 0 } rfl j
      · rw [tset_keep_fc (tset m p { m p with next_sibling := n }) n
            { (tset m p { m p with next_sibling := n }) n with prev_sibling := p } rfl j,
          tset_keep_fc m p { m p with next_sibling := n } rfl j]

theorem link_next (m : TStore) (p n j : Nat) (hp : p ≠ 0) :
    ((link m p n) j).next_sibling
      = if j = p then n else (m j).next_sibling := by
  have hpn : ¬(p = 0 ∧ n = 0) := fun h => hp h.1
  by_cases hn : n = 0
  · subst hn
    have e : link m p 0 = tset m p { m p with next_sibling := 0 } := by
      unfold link
      rw [if_neg hpn, if_neg hp, if_pos rfl]
    rw [e]
    exact tset_set_next m p 0 j
  · have e : link m p n = tset (tset m p { m p with next_sibling := n }) n
        { (tset m p { m p with next_sibling := n }) n with prev_sibling := p } := by
      unfold link
      rw [if_neg hpn, if_neg hp, if_neg hn]
    rw [e, tset_keep_next (tset m p { m p with next_sibling := n }) n
        { (tset m p { m p with next_sibling := n }) n with prev_sibling := p } rfl j,
      tset_set_next]

theorem tset_fc_parent (m : TStore) (k v j : Nat) :
    ((tset m k { m k with first_child := v }) j).parent = (m j).parent := by
  simp only [tset]
  split
  · subst_vars; rfl
  · rfl

theorem tset_fc_next (m : TStore) (k v j : Nat) :
    ((tset m k { m k with first_child := v }) j).next_sibling
      = (m j).next_sibling := by
  simp only [tset]
  split
  · subst_vars; rfl
  · rfl

theorem tset_fc_fc (m : TStore) (k v j : Nat) :
    ((tset m k { m k with first_child := v }) j).first_child
      = if j = k then v else (m j).first_child := by
  simp only [tset]
  split
  · subst_vars; rfl
  · rfl

theorem reparent_eq (parent_key : Nat) :
    ∀ (kids : List Nat) (m : TStore) (fuel : Nat),
      kids ≠ [] → 0 ∉ kids → kids.Nodup → sibChain m kids 0 →
      kids.length ≤ fuel →
      (∀ j, (reparent_children fuel m (kids.headD 0) parent_key).1 j
          = if j ∈ kids then { m j with parent := parent_key } else m j)
      ∧ (reparent_children fuel m (kids.headD 0) parent_key).2
          = kids.getLastD 0
  | [], _, _, hne, _, _, _, _ => absurd rfl hne
  | [c], m, fuel, _, h0, _, hs, hf => by
      cases fuel with
      | zero => exact absurd hf (by simp)
      | succ fuel =>
        have hc0 : c ≠ 0 := fun h => h0 (by rw [← h]; exact List.mem_cons_self c [])
        simp only [List.headD_cons, reparent_children]
        rw [if_neg hc0]
        have hnx : (tset m c { m c with parent := parent_key } c).next_sibling = 0 := by
          rw [tset_self]
          exact hs.1
        simp only [hnx]
        rw [if_pos trivial]
        refine ⟨fun j => ?_, rfl⟩
        show tset m c { m c with parent := parent_key } j = _
        by_cases hj : j = c
        · subst hj
          rw [tset_self, if_pos (List.mem_cons_self _ _)]
        · rw [tset_ne _ _ _ hj, if_neg (fun hmem => hj (by simpa using hmem))]
  | c :: c' :: rest, m, fuel, _, h0, hnd, hs, hf => by
      cases fuel with
      | zero => exact absurd hf (by simp)
      | succ fuel =>
        have hc0 : c ≠ 0 := fun h => h0 (by rw [← h]; exact List.mem_cons_self _ _)
        have hc'0 : c' ≠ 0 := fun h => h0 (by rw [← h]; simp)
        have hcnot : c ∉ c' :: rest := (List.nodup_cons.mp hnd).1
        simp only [List.headD_cons, reparent_children]
        rw [if_neg hc0]
        have hnx : (tset m c { m c with parent := parent_key } c).next_sibling = c' := by
          rw [tset_self]
          exact hs.1
        simp only [hnx]
        rw [if_neg hc'0]
        have hs' : sibChain (tset m c { m c with parent := parent_key }) (c' :: rest) 0 := by
          refine sibChain_congr m _ _ _ (fun k hk => ?_) hs.2
          rw [tset_ne _ _ _ (fun h => hcnot (by rw [← h]; exact hk))]
        have ih := reparent_eq parent_key (c' :: rest)
          (tset m c { m c with parent := parent_key }) fuel (by simp)
          (fun h => h0 (List.mem_cons_of_mem c h)) (List.nodup_cons.mp hnd).2 hs'
          (Nat.le_of_succ_le_succ hf)
        simp only [List.headD_cons] at ih
        constructor
        · intro j
          rw [ih.1 j]
          by_cases hj' : j ∈ c' :: rest
          · rw [if_pos hj', if_pos (List.mem_cons_of_mem c hj')]
            have hjc : j ≠ c := fun h => hcnot (h ▸ hj')
            rw [tset_ne _ _ _ hjc]
          · by_cases hjc : j = c
            · subst hjc
              rw [if_neg hj', tset_self, if_pos (List.mem_cons_self _ _)]
            · rw [if_neg hj', tset_ne _ _ _ hjc,
                if_neg (by simp only [List.mem_cons]; push_neg; exact ⟨hjc, by simpa using hj'⟩)]
        · rw [ih.2]
          rfl

theorem orphan_zero (m : TStore) (fuel : Nat) : orphan_children fuel m 0 = m := by
  cases fuel <;> rfl

theorem orphan_eq :
    ∀ (kids : List Nat) (m : TStore) (fuel : Nat),
      0 ∉ kids → kids.Nodup → sibChain m kids 0 → kids.length ≤ fuel →
      ∀ j, (orphan_children fuel m (kids.headD 0)) j
        = if j ∈ kids then
            { m j with parent := 0, prev_sibling := 0, next_sibling := 0 }
          else m j
  | [], m, fuel, _, _, _, _, j => by
      simp only [List.headD_nil, orphan_zero]
      simp
  | c :: rest, m, fuel, h0, hnd, hs, hf, j => by
      cases fuel with
      | zero => exact absurd hf (by simp)
      | succ fuel =>
        have hc0 : c ≠ 0 := fun h => h0 (by rw [← h]; exact List.mem_cons_self _ _)
        have hcnot : c ∉ rest := (List.nodup_cons.mp hnd).1
        simp only [List.headD_cons, orphan_children]
        rw [if_neg hc0]
        have hnx : (m c).next_sibling = rest.headD 0 := hs.1
        rw [hnx]
        have hs' : sibChain
            (tset m c { m c with parent := 0, prev_sibling := 0, next_sibling := 0 })
            rest 0 := by
          refine sibChain_congr m _ _ _ (fun k hk => ?_) hs.2
          rw [tset_ne _ _ _ (fun h => hcnot (by rw [← h]; exact hk))]
        have ih := orphan_eq rest
          (tset m c { m c with parent := 0, prev_sibling := 0, next_sibling := 0 }) fuel
          (fun h => h0 (List.mem_cons_of_mem c h)) (List.nodup_cons.mp hnd).2 hs'
          (Nat.le_of_succ_le_succ hf) j
        rw [ih]
        by_cases hj' : j ∈ rest
        · rw [if_pos hj', if_pos (List.mem_cons_of_mem c hj')]
          have hjc : j ≠ c := fun h => hcnot (h ▸ hj')
          rw [tset_ne _ _ _ hjc]
        · by_cases hjc : j = c
          · subst hjc
            rw [if_neg hj', tset_self, if_pos (List.mem_cons_self _ _)]
          · rw [if_neg hj', tset_ne _ _ _ hjc,
              if_neg (by simp only [List.mem_cons]; push_neg; exact ⟨hjc, hj'⟩)]

theorem headD_ne_nil {α : Type} (l : List α) (d d' : α) (h : l ≠ []) :
    l.headD d = l.headD d' := by
  cases l with
  | nil => exact absurd rfl h
  | cons a l => rfl

theorem destroy_orphan_shape (fuel : Nat) (m : TStore) (t : Nat)
    (hfc0 : (m t).first_child ≠ 0) (hp0 : (m t).parent = 0) :
    ung_transform_destroy fuel m t = orphan_children fuel m ((m t).first_child) := by
  simp only [ung_transform_destroy]
  rw [if_pos hfc0, if_neg (fun h => h hp0)]

theorem destroy_childless_shape (fuel : Nat) (m : TStore) (t : Nat)
    (hfc0 : (m t).first_child = 0) (hp0 : (m t).parent ≠ 0) :
    ung_transform_destroy fuel m t
      = (if ((link m ((m t).prev_sibling) ((m t).next_sibling)) ((m t).parent)).first_child
            = t then
          tset (link m ((m t).prev_sibling) ((m t).next_sibling)) ((m t).parent)
            { (link m ((m t).prev_sibling) ((m t).next_sibling)) ((m t).parent) with
              first_child :=
                ((link m ((m t).prev_sibling) ((m t).next_sibling)) t).next_sibling }
        else link m ((m t).prev_sibling) ((m t).next_sibling)) := by
  simp only [ung_transform_destroy]
  rw [if_neg (fun h => h hfc0), if_pos hp0]

theorem destroy_parent_shape (fuel : Nat) (m M1 m2 : TStore) (t last : Nat)
    (hfc0 : (m t).first_child ≠ 0) (hp0 : (m t).parent ≠ 0)
    (hM1 : M1 = (reparent_children fuel m ((m t).first_child) ((m t).parent)).1)
    (hlast : last = (reparent_children fuel m ((m t).first_child) ((m t).parent)).2)
    (hm2 : m2 = if (M1 ((M1 t).parent)).first_child = t then
        tset M1 ((M1 t).parent)
          { M1 ((M1 t).parent) with first_child := (M1 t).first_child }
      else link M1 ((M1 t).prev_sibling) ((M1 t).first_child)) :
    ung_transform_destroy fuel m t = link m2 last ((m2 t).next_sibling) := by
  subst hM1 hlast hm2
  simp only [ung_transform_destroy]
  rw [if_pos hfc0, if_pos hp0]

theorem c4_no_parent_case (m : TStore) (t : Nat) (kids : List Nat) (fuel : Nat)
    (hnd : (t :: kids).Nodup) (h0 : 0 ∉ t :: kids) (hkne : kids ≠ [])
    (hpt : (m t).parent = 0) (hfc : (m t).first_child = kids.headD 0)
    (hsibk : sibChain m kids 0) (hfuel : kids.length ≤ fuel) :
    ∀ c ∈ kids,
      ((ung_transform_destroy fuel m t) c).parent = 0 ∧
      ((ung_transform_destroy fuel m t) c).prev_sibling = 0 ∧
      ((ung_transform_destroy fuel m t) c).next_sibling = 0 := by
  have hk0 : 0 ∉ kids := fun h => h0 (List.mem_cons_of_mem t h)
  have hknd : kids.Nodup := (List.nodup_cons.mp hnd).2
  have hc1 : kids.headD 0 ≠ 0 := by
    intro h
    exact hk0 (by rw [← h]; exact headD_mem kids 0 hkne)
  have hd : ung_transform_destroy fuel m t = orphan_children fuel m (kids.headD 0) := by
    rw [destroy_orphan_shape fuel m t (by rw [hfc]; exact hc1) hpt, hfc]
  rw [hd]
  intro c hc
  rw [orphan_eq kids m fuel hk0 hknd hsibk hfuel c, if_pos hc]
  exact ⟨rfl, rfl, rfl⟩

theorem c4_childless_case (m : TStore) (t P : Nat) (pre post : List Nat) (fuel : Nat)
    (hnd : (P :: t :: (pre ++ post)).Nodup) (h0 : 0 ∉ P :: t :: (pre ++ post))
    (hpt : (m t).parent = P) (hfc : (m t).first_child = 0)
    (hprev : (m t).prev_sibling = pre.getLastD 0)
    (hfcP : (m P).first_child = (pre ++ t :: post).headD 0)
    (hsiball : sibChain m (pre ++ t :: post) 0) :
    chain (ung_transform_destroy fuel m t) (pre ++ post).length
        (((ung_transform_destroy fuel m t) P).first_child) = pre ++ post := by
  have hnd1 := List.nodup_cons.mp hnd
  have hnd2 := List.nodup_cons.mp hnd1.2
  have htin : t ∉ pre ++ post := hnd2.1
  have hndpp := List.nodup_append.mp hnd2.2
  have htpre : t ∉ pre := fun h => htin (List.mem_append_left _ h)
  have h0l : 0 ∉ pre ++ post :=
    fun h => h0 (List.mem_cons_of_mem _ (List.mem_cons_of_mem _ h))
  have h0pre : 0 ∉ pre := fun h => h0l (List.mem_append_left _ h)
  have h0post : 0 ∉ post := fun h => h0l (List.mem_append_right _ h)
  have hP0 : P ≠ 0 := fun h => h0 (by rw [← h]; exact List.mem_cons_self _ _)
  have hsp := (sibChain_append m pre (t :: post) 0).mp hsiball
  have hsib_pre : sibChain m pre t := by
    have h := hsp.1
    rwa [List.headD_cons] at h
  have hnext_t : (m t).next_sibling = post.headD 0 := hsp.2.1
  have hsib_post : sibChain m post 0 := hsp.2.2
  have hd := destroy_childless_shape fuel m t hfc (by rw [hpt]; exact hP0)
  rw [hpt, hprev, hnext_t] at hd
  cases pre with
  | nil =>
    simp only [List.getLastD_nil] at hd
    simp only [List.nil_append, List.headD_cons] at hfcP
    have hm1 : ∀ j, (link m 0 (post.headD 0)) j
        = if post.headD 0 = 0 then m j
          else tset m (post.headD 0) { m (post.headD 0) with prev_sibling := 0 } j := by
      intro j
      unfold link
      by_cases hp1 : post.headD 0 = 0
      · rw [if_pos ⟨rfl, hp1⟩, if_pos hp1]
      · rw [if_neg (fun hh => hp1 hh.2), if_pos rfl, if_neg hp1]
    have hm1fc : ∀ j, ((link m 0 (post.headD 0)) j).first_child = (m j).first_child := by
      intro j
      rw [hm1 j]
      by_cases hp1 : post.headD 0 = 0
      · rw [if_pos hp1]
      · rw [if_neg hp1]
        exact tset_keep_fc m (post.headD 0)
          { m (post.headD 0) with prev_sibling := 0 } rfl j
    have hm1next : ∀ j, ((link m 0 (post.headD 0)) j).next_sibling
        = (m j).next_sibling := by
      intro j
      rw [hm1 j]
      by_cases hp1 : post.headD 0 = 0
      · rw [if_pos hp1]
      · rw [if_neg hp1]
        exact tset_keep_next m (post.headD 0)
          { m (post.headD 0) with prev_sibling := 0 } rfl j
    rw [if_pos (by rw [hm1fc P]; exact hfcP)] at hd
    rw [hd]
    have hfc2 : ((tset (link m 0 (post.headD 0)) P
        { (link m 0 (post.headD 0)) P with
          first_child := ((link m 0 (post.headD 0)) t).next_sibling }) P).first_child
        = post.headD 0 := by
      rw [tset_fc_fc, if_pos rfl, hm1next t, hnext_t]
    rw [hfc2, List.nil_append]
    refine chain_eq _ post post.length h0post ?_ le_rfl
    refine sibChain_congr m _ post 0 (fun k hk => ?_) hsib_post
    rw [tset_fc_next, hm1next k]
  | cons q pre' =>
    have hql : (q :: pre').getLastD 0 ∈ q :: pre' := getLastD_mem _ _ (by simp)
    have hql0 : (q :: pre').getLastD 0 ≠ 0 :=
      fun h => h0pre (by rw [← h]; exact hql)
    simp only [List.cons_append, List.headD_cons] at hfcP
    have hq : ((link m ((q :: pre').getLastD 0) (post.headD 0)) P).first_child = q := by
      rw [link_fc]
      exact hfcP
    have hqt : q ≠ t := fun h => htpre (by rw [← h]; exact List.mem_cons_self _ _)
    rw [if_neg (by rw [hq]; exact hqt)] at hd
    rw [hd, link_fc, hfcP]
    have hnewnext : ∀ j, ((link m ((q :: pre').getLastD 0) (post.headD 0)) j).next_sibling
        = if j = (q :: pre').getLastD 0 then post.headD 0 else (m j).next_sibling :=
      fun j => link_next m _ _ j hql0
    have hs1 : sibChain (link m ((q :: pre').getLastD 0) (post.headD 0)) (q :: pre')
        (post.headD 0) := by
      refine sibChain_update_last m _ (q :: pre') (post.headD 0) (by simp) hndpp.1
        (fun k hk hkl => ?_) ?_ t hsib_pre
      · rw [hnewnext k, if_neg hkl]
      · rw [hnewnext _, if_pos rfl]
    have hs2 : sibChain (link m ((q :: pre').getLastD 0) (post.headD 0)) post 0 := by
      refine sibChain_congr m _ post 0 (fun k hk => ?_) hsib_post
      rw [hnewnext k, if_neg (fun h => hndpp.2.2 hql (by rw [← h]; exact hk))]
    have hs3 : sibChain (link m ((q :: pre').getLastD 0) (post.headD 0))
        ((q :: pre') ++ post) 0 :=
      (sibChain_append _ _ _ _).mpr ⟨hs1, hs2⟩
    have := chain_eq (link m ((q :: pre').getLastD 0) (post.headD 0))
      ((q :: pre') ++ post) ((q :: pre') ++ post).length
      (fun h => h0l h) hs3 le_rfl
    simpa using this

theorem c4_parent_case (m : TStore) (t P : Nat) (pre post kids : List Nat) (fuel : Nat)
    (hnd : (P :: t :: (pre ++ post ++ kids)).Nodup)
    (h0 : 0 ∉ P :: t :: (pre ++ post ++ kids))
    (hkne : kids ≠ [])
    (hpt : (m t).parent = P)
    (hfc : (m t).first_child = kids.headD 0)
    (hprev : (m t).prev_sibling = pre.getLastD 0)
    (hsibk : sibChain m kids 0)
    (hfcP : (m P).first_child = (pre ++ t :: post).headD 0)
    (hsiball : sibChain m (pre ++ t :: post) 0)
    (hfuel : kids.length ≤ fuel) :
    (∀ c ∈ kids, ((ung_transform_destroy fuel m t) c).parent = P) ∧
    chain (ung_transform_destroy fuel m t) (pre ++ kids ++ post).length
        (((ung_transform_destroy fuel m t) P).first_child) = pre ++ kids ++ post := by
  have hnd1 := List.nodup_cons.mp hnd
  have hnd2 := List.nodup_cons.mp hnd1.2
  have htin : t ∉ pre ++ post ++ kids := hnd2.1
  have hnd3 : (pre ++ post ++ kids).Nodup := hnd2.2
  have hnda := List.nodup_append.mp hnd3
  have hndb := List.nodup_append.mp hnda.1
  have hknd : kids.Nodup := hnda.2.1
  have hdisj_ppk : (pre ++ post).Disjoint kids := hnda.2.2
  have hdisj_prepost : pre.Disjoint post := hndb.2.2
  have hPin : P ∉ pre ++ post ++ kids := fun h => hnd1.1 (List.mem_cons_of_mem _ h)
  have hPkids : P ∉ kids := fun h => hPin (List.mem_append_right _ h)
  have htpre : t ∉ pre :=
    fun h => htin (List.mem_append_left _ (List.mem_append_left _ h))
  have htkids : t ∉ kids := fun h => htin (List.mem_append_right _ h)
  have h0l : 0 ∉ pre ++ post ++ kids :=
    fun h => h0 (List.mem_cons_of_mem _ (List.mem_cons_of_mem _ h))
  have h0pre : 0 ∉ pre :=
    fun h => h0l (List.mem_append_left _ (List.mem_append_left _ h))
  have h0post : 0 ∉ post :=
    fun h => h0l (List.mem_append_left _ (List.mem_append_right _ h))
  have h0kids : 0 ∉ kids := fun h => h0l (List.mem_append_right _ h)
  have hP0 : P ≠ 0 := fun h => h0 (by rw [← h]; exact List.mem_cons_self _ _)
  have hc1mem : kids.headD 0 ∈ kids := headD_mem kids 0 hkne
  have hc1ne : kids.headD 0 ≠ 0 := fun h => h0kids (by rw [← h]; exact hc1mem)
  have hcnmem : kids.getLastD 0 ∈ kids := getLastD_mem kids 0 hkne
  have hcnne : kids.getLastD 0 ≠ 0 := fun h => h0kids (by rw [← h]; exact hcnmem)
  have hsp := (sibChain_append m pre (t :: post) 0).mp hsiball
  have hsib_pre : sibChain m pre t := by
    have h := hsp.1
    rwa [List.headD_cons] at h
  have hnext_t : (m t).next_sibling = post.headD 0 := hsp.2.1
  have hsib_post : sibChain m post 0 := hsp.2.2
  obtain ⟨hM1, hlastv⟩ := reparent_eq P kids m fuel hkne h0kids hknd hsibk hfuel
  have hM1_next : ∀ j, ((reparent_children fuel m (kids.headD 0) P).1 j).next_sibling
      = (m j).next_sibling := by
    intro j
    rw [hM1 j]
    by_cases hj : j ∈ kids
    · rw [if_pos hj]
    · rw [if_neg hj]
  have hM1_fc : ∀ j, ((reparent_children fuel m (kids.headD 0) P).1 j).first_child
      = (m j).first_child := by
    intro j
    rw [hM1 j]
    by_cases hj : j ∈ kids
    · rw [if_pos hj]
    · rw [if_neg hj]
  have hM1_parent : ∀ c ∈ kids,
      ((reparent_children fuel m (kids.headD 0) P).1 c).parent = P := by
    intro c hc
    rw [hM1 c, if_pos hc]
  have hM1t : (reparent_children fuel m (kids.headD 0) P).1 t = m t := by
    rw [hM1 t, if_neg htkids]
  have hM1P : (reparent_children fuel m (kids.headD 0) P).1 P = m P := by
    rw [hM1 P, if_neg hPkids]
  have hkdisj_post : ∀ k ∈ post, k ∉ kids :=
    fun k hk => hdisj_ppk (List.mem_append_right _ hk)
  have hkdisj_pre : ∀ k ∈ pre, k ∉ kids :=
    fun k hk => hdisj_ppk (List.mem_append_left _ hk)
  cases pre with
  | nil =>
    simp only [List.nil_append] at hfcP ⊢
    rw [List.headD_cons] at hfcP
    have hm2 : tset (reparent_children fuel m (kids.headD 0) P).1 P
        { (reparent_children fuel m (kids.headD 0) P).1 P with
          first_child := kids.headD 0 }
        = if ((reparent_children fuel m (kids.headD 0) P).1
              (((reparent_children fuel m (kids.headD 0) P).1 t).parent)).first_child = t
          then
            tset (reparent_children fuel m (kids.headD 0) P).1
              (((reparent_children fuel m (kids.headD 0) P).1 t).parent)
              { (reparent_children fuel m (kids.headD 0) P).1
                  (((reparent_children fuel m (kids.headD 0) P).1 t).parent) with
                first_child :=
                  ((reparent_children fuel m (kids.headD 0) P).1 t).first_child }
          else
            link (reparent_children fuel m (kids.headD 0) P).1
              (((reparent_children fuel m (kids.headD 0) P).1 t).prev_sibling)
              (((reparent_children fuel m (kids.headD 0) P).1 t).first_child) := by
      rw [hM1t, hpt, hfc, hM1P, hfcP, if_pos rfl]
    have hd := destroy_parent_shape fuel m
      (reparent_children fuel m (kids.headD 0) P).1
      (tset (reparent_children fuel m (kids.headD 0) P).1 P
        { (reparent_children fuel m (kids.headD 0) P).1 P with
          first_child := kids.headD 0 })
      t
      (reparent_children fuel m (kids.headD 0) P).2
      (by rw [hfc]; exact hc1ne) (by rw [hpt]; exact hP0)
      (by rw [hfc, hpt]) (by rw [hfc, hpt]) hm2
    rw [hlastv] at hd
    have hm2t_next : ((tset (reparent_children fuel m (kids.headD 0) P).1 P
        { (reparent_children fuel m (kids.headD 0) P).1 P with
          first_child := kids.headD 0 }) t).next_sibling = post.headD 0 := by
      rw [tset_fc_next, hM1_next t, hnext_t]
    rw [hm2t_next] at hd
    rw [hd]
    constructor
    · intro c hc
      rw [link_parent, tset_fc_parent]
      exact hM1_parent c hc
    · have hfc2 : ((link (tset (reparent_children fuel m (kids.headD 0) P).1 P
          { (reparent_children fuel m (kids.headD 0) P).1 P with
            first_child := kids.headD 0 }) (kids.getLastD 0) (post.headD 0))
            P).first_child = kids.headD 0 := by
        rw [link_fc, tset_fc_fc, if_pos rfl]
      rw [hfc2]
      have hnewnext : ∀ j, ((link (tset (reparent_children fuel m (kids.headD 0) P).1 P
          { (reparent_children fuel m (kids.headD 0) P).1 P with
            first_child := kids.headD 0 }) (kids.getLastD 0) (post.headD 0))
            j).next_sibling
          = if j = kids.getLastD 0 then post.headD 0 else (m j).next_sibling := by
        intro j
        rw [link_next _ _ _ _ hcnne]
        by_cases hj : j = kids.getLastD 0
        · rw [if_pos hj, if_pos hj]
        · rw [if_neg hj, if_neg hj, tset_fc_next, hM1_next j]
      have hs1 : sibChain (link (tset (reparent_children fuel m (kids.headD 0) P).1 P
          { (reparent_children fuel m (kids.headD 0) P).1 P with
            first_child := kids.headD 0 }) (kids.getLastD 0) (post.headD 0))
          kids (post.headD 0) := by
        refine sibChain_update_last m _ kids (post.headD 0) hkne hknd
          (fun k hk hkl => ?_) ?_ 0 hsibk
        · rw [hnewnext k, if_neg hkl]
        · rw [hnewnext _, if_pos rfl]
      have hs2 : sibChain (link (tset (reparent_children fuel m (kids.headD 0) P).1 P
          { (reparent_children fuel m (kids.headD 0) P).1 P with
            first_child := kids.headD 0 }) (kids.getLastD 0) (post.headD 0)) post 0 := by
        refine sibChain_congr m _ post 0 (fun k hk => ?_) hsib_post
        rw [hnewnext k,
          if_neg (fun h => hkdisj_post k hk (by rw [h]; exact hcnmem))]
      have hs3 := (sibChain_append (link
          (tset (reparent_children fuel m (kids.headD 0) P).1 P
            { (reparent_children fuel m (kids.headD 0) P).1 P with
              first_child := kids.headD 0 }) (kids.getLastD 0) (post.headD 0))
          kids post 0).mpr ⟨hs1, hs2⟩
      have hch := chain_eq _ (kids ++ post) (kids ++ post).length
        (fun h => (List.mem_append.mp h).elim (fun hh => h0kids hh) (fun hh => h0post hh))
        hs3 le_rfl
      rw [headD_append, headD_ne_nil kids (post.headD 0) 0 hkne] at hch
      exact hch
  | cons q pre' =>
    simp only [List.cons_append, List.headD_cons] at hfcP ⊢
    have hqlmem : (q :: pre').getLastD 0 ∈ q :: pre' := getLastD_mem _ _ (by simp)
    have hql0 : (q :: pre').getLastD 0 ≠ 0 := fun h => h0pre (by rw [← h]; exact hqlmem)
    have hqt : q ≠ t := fun h => htpre (by rw [← h]; exact List.mem_cons_self _ _)
    have hm2 : link (reparent_children fuel m (kids.headD 0) P).1
        ((q :: pre').getLastD 0) (kids.headD 0)
        = if ((reparent_children fuel m (kids.headD 0) P).1
              (((reparent_children fuel m (kids.headD 0) P).1 t).parent)).first_child = t
          then
            tset (reparent_children fuel m (kids.headD 0) P).1
              (((reparent_children fuel m (kids.headD 0) P).1 t).parent)
              { (reparent_children fuel m (kids.headD 0) P).1
                  (((reparent_children fuel m (kids.headD 0) P).1 t).parent) with
                first_child :=
                  ((reparent_children fuel m (kids.headD 0) P).1 t).first_child }
          else
            link (reparent_children fuel m (kids.headD 0) P).1
              (((reparent_children fuel m (kids.headD 0) P).1 t).prev_sibling)
              (((reparent_children fuel m (kids.headD 0) P).1 t).first_child) := by
      rw [hM1t, hpt, hfc, hM1P, hfcP, hprev, if_neg hqt]
    have hd := destroy_parent_shape fuel m
      (reparent_children fuel m (kids.headD 0) P).1
      (link (reparent_children fuel m (kids.headD 0) P).1
        ((q :: pre').getLastD 0) (kids.headD 0))
      t
      (reparent_children fuel m (kids.headD 0) P).2
      (by rw [hfc]; exact hc1ne) (by rw [hpt]; exact hP0)
      (by rw [hfc, hpt]) (by rw [hfc, hpt]) hm2
    rw [hlastv] at hd
    have htql : t ≠ (q :: pre').getLastD 0 := fun h => htpre (by rw [h]; exact hqlmem)
    have hm2t_next : ((link (reparent_children fuel m (kids.headD 0) P).1
        ((q :: pre').getLastD 0) (kids.headD 0)) t).next_sibling = post.headD 0 := by
      rw [link_next _ _ _ _ hql0, if_neg htql, hM1_next t, hnext_t]
    rw [hm2t_next] at hd
    rw [hd]
    have hPql : P ≠ (q :: pre').getLastD 0 :=
      fun h => hPin (List.mem_append_left _ (List.mem_append_left _ (by rw [h]; exact hqlmem)))
    have hcnql : kids.getLastD 0 ≠ (q :: pre').getLastD 0 :=
      fun h => hkdisj_pre _ hqlmem (by rw [← h]; exact hcnmem)
    have hnewnext : ∀ j, ((link (link (reparent_children fuel m (kids.headD 0) P).1
        ((q :: pre').getLastD 0) (kids.headD 0)) (kids.getLastD 0) (post.headD 0))
          j).next_sibling
        = if j = kids.getLastD 0 then post.headD 0
          else if j = (q :: pre').getLastD 0 then kids.headD 0
          else (m j).next_sibling := by
      intro j
      rw [link_next _ _ _ _ hcnne]
      by_cases hj : j = kids.getLastD 0
      · rw [if_pos hj, if_pos hj]
      · rw [if_neg hj, if_neg hj, link_next _ _ _ _ hql0]
        by_cases hj2 : j = (q :: pre').getLastD 0
        · rw [if_pos hj2, if_pos hj2]
        · rw [if_neg hj2, if_neg hj2, hM1_next j]
    have hfc2 : ((link (link (reparent_children fuel m (kids.headD 0) P).1
        ((q :: pre').getLastD 0) (kids.headD 0)) (kids.getLastD 0) (post.headD 0))
          P).first_child = q := by
      rw [link_fc, link_fc, hM1_fc P]
      exact hfcP
    constructor
    · intro c hc
      rw [link_parent, link_parent]
      exact hM1_parent c hc
    · rw [hfc2]
      have hs1 : sibChain (link (link (reparent_children fuel m (kids.headD 0) P).1
          ((q :: pre').getLastD 0) (kids.headD 0)) (kids.getLastD 0) (post.headD 0))
          (q :: pre') (kids.headD 0) := by
        refine sibChain_update_last m _ (q :: pre') (kids.headD 0) (by simp) hndb.1
          (fun k hk hkl => ?_) ?_ t hsib_pre
        · rw [hnewnext k,
            if_neg (fun h => hkdisj_pre k hk (by rw [h]; exact hcnmem)),
            if_neg hkl]
        · rw [hnewnext _, if_neg (Ne.symm hcnql), if_pos rfl]
      have hs2 : sibChain (link (link (reparent_children fuel m (kids.headD 0) P).1
          ((q :: pre').getLastD 0) (kids.headD 0)) (kids.getLastD 0) (post.headD 0))
          kids (post.headD 0) := by
        refine sibChain_update_last m _ kids (post.headD 0) hkne hknd
          (fun k hk hkl => ?_) ?_ 0 hsibk
        · rw [hnewnext k, if_neg hkl,
            if_neg (fun h => hkdisj_pre _ hqlmem (by rw [← h]; exact hk))]
        · rw [hnewnext _, if_pos rfl]
      have hs2b : sibChain (link (link (reparent_children fuel m (kids.headD 0) P).1
          ((q :: pre').getLastD 0) (kids.headD 0)) (kids.getLastD 0) (post.headD 0))
          post 0 := by
        refine sibChain_congr m _ post 0 (fun k hk => ?_) hsib_post
        rw [hnewnext k,
          if_neg (fun h => hkdisj_post k hk (by rw [h]; exact hcnmem)),
          if_neg (fun h => hdisj_prepost hqlmem (by rw [← h]; exact hk))]
      have hs3 := (sibChain_append (link (link
          (reparent_children fuel m (kids.headD 0) P).1
          ((q :: pre').getLastD 0) (kids.headD 0)) (kids.getLastD 0) (post.headD 0))
          (q :: pre') (kids ++ post) 0).mpr
        ⟨by rw [headD_append, headD_ne_nil kids (post.headD 0) 0 hkne]; exact hs1,
         (sibChain_append _ kids post 0).mpr ⟨hs2, hs2b⟩⟩
      have hch := chain_eq _ ((q :: pre') ++ (kids ++ post))
        ((q :: pre') ++ (kids ++ post)).length
        (fun h => (List.mem_append.mp h).elim (fun hh => h0pre hh)
          (fun hh => (List.mem_append.mp hh).elim (fun h2 => h0kids h2)
            (fun h2 => h0post h2)))
        hs3 le_rfl
      simp only [List.cons_append, List.headD_cons, List.length_cons, List.length_append] at hch ⊢
      simp only [List.append_assoc]
      have hlen : pre'.length + (kids.length + post.length) + 1
          = pre'.length + kids.length + post.length + 1 := by omega
      rw [hlen] at hch
      exact hch

/-- **C4.**  `ung_transform_destroy` re-links the hierarchy: (a) if the
destroyed node `t` has children `kids` and a parent `P` whose child
list is `pre ++ [t] ++ post`, then afterwards every kid's parent is `P`
and `P`'s child list is `pre ++ kids ++ post` — the same nodes as
before minus `t` itself (plus `t`'s children spliced in at its old
position), as the permutation conjunct states; (b) if `t` has children
but no parent, all children become roots (parent, prev and next
cleared); (c) if `t` is childless with parent `P`, it is unlinked:
`P`'s child list becomes `pre ++ post`, exactly the old list minus
`t`. -/
theorem C4_destroy_reparents_and_splices :
    (∀ (m : TStore) (t P : Nat) (pre post kids : List Nat) (fuel : Nat),
      (P :: t :: (pre ++ post ++ kids)).Nodup →
      0 ∉ P :: t :: (pre ++ post ++ kids) →
      kids ≠ [] →
      (m t).parent = P →
      (m t).first_child = kids.headD 0 →
      (m t).prev_sibling = pre.getLastD 0 →
      sibChain m kids 0 →
      (m P).first_child = (pre ++ t :: post).headD 0 →
      sibChain m (pre ++ t :: post) 0 →
      kids.length ≤ fuel →
      (∀ c ∈ kids, ((ung_transform_destroy fuel m t) c).parent = P) ∧
      chain (ung_transform_destroy fuel m t) (pre ++ kids ++ post).length
          (((ung_transform_destroy fuel m t) P).first_child) = pre ++ kids ++ post ∧
      (pre ++ kids ++ post).Perm ((pre ++ t :: post).erase t ++ kids))
    ∧ (∀ (m : TStore) (t : Nat) (kids : List Nat) (fuel : Nat),
      (t :: kids).Nodup → 0 ∉ t :: kids → kids ≠ [] →
      (m t).parent = 0 →
      (m t).first_child = kids.headD 0 →
      sibChain m kids 0 →
      kids.length ≤ fuel →
      ∀ c ∈ kids,
        ((ung_transform_destroy fuel m t) c).parent = 0 ∧
        ((ung_transform_destroy fuel m t) c).prev_sibling = 0 ∧
        ((ung_transform_destroy fuel m t) c).next_sibling = 0)
    ∧ (∀ (m : TStore) (t P : Nat) (pre post : List Nat) (fuel : Nat),
      (P :: t :: (pre ++ post)).Nodup →
      0 ∉ P :: t :: (pre ++ post) →
      (m t).parent = P →
      (m t).first_child = 0 →
      (m t).prev_sibling = pre.getLastD 0 →
      (m P).first_child = (pre ++ t :: post).headD 0 →
      sibChain m (pre ++ t :: post) 0 →
      chain (ung_transform_destroy fuel m t) (pre ++ post).length
          (((ung_transform_destroy fuel m t) P).first_child) = pre ++ post ∧
      pre ++ post = (pre ++ t :: post).erase t) := by
  refine ⟨?_, ?_, ?_⟩
  · intro m t P pre post kids fuel hnd h0 hkne hpt hfc hprev hsibk hfcP hsiball hfuel
    obtain ⟨h1, h2⟩ := c4_parent_case m t P pre post kids fuel hnd h0 hkne hpt hfc
      hprev hsibk hfcP hsiball hfuel
    refine ⟨h1, h2, ?_⟩
    have htpre : t ∉ pre := fun h =>
      (List.nodup_cons.mp (List.nodup_cons.mp hnd).2).1
        (List.mem_append_left _ (List.mem_append_left _ h))
    rw [List.erase_append_right _ htpre, List.erase_cons_head]
    rw [List.append_assoc, List.append_assoc]
    exact List.Perm.append_left pre List.perm_append_comm
  · intro m t kids fuel hnd h0 hkne hpt hfc hsibk hfuel
    exact c4_no_parent_case m t kids fuel hnd h0 hkne hpt hfc hsibk hfuel
  · intro m t P pre post fuel hnd h0 hpt hfc hprev hfcP hsiball
    refine ⟨c4_childless_case m t P pre post fuel hnd h0 hpt hfc hprev hfcP hsiball, ?_⟩
    have htpre : t ∉ pre := fun h =>
      (List.nodup_cons.mp (List.nodup_cons.mp hnd).2).1 (List.mem_append_left _ h)
    rw [List.erase_append_right _ htpre, List.erase_cons_head]

/-- Witness for C4 at the concrete store `c4m`: destroying node 2
reparents its children 3, 4 to node 1 and splices them into 1's child
list, giving [5, 3, 4, 6]; destroying the parentless node 7 makes its
children roots; destroying the childless node 5 unlinks it, leaving
[2, 6]. -/
theorem C4_destroy_reparents_and_splices_witness :
    ((ung_transform_destroy 2 c4m 2) 3).parent = 1 ∧
    ((ung_transform_destroy 2 c4m 2) 4).parent = 1 ∧
    chain (ung_transform_destroy 2 c4m 2) 4
      ((ung_transform_destroy 2 c4m 2 1).first_child) = [5, 3, 4, 6] ∧
    ((ung_transform_destroy 2 c4m 7) 8).next_sibling = 0 ∧
    ((ung_transform_destroy 2 c4m 7) 9).parent = 0 ∧
    chain (ung_transform_destroy 1 c4m 5) 2
      ((ung_transform_destroy 1 c4m 5 1).first_child) = [2, 6] := by
  have ha := C4_destroy_reparents_and_splices.1 c4m 2 1 [5] [6] [3, 4] 2
    (by decide) (by decide) (by decide) rfl rfl rfl ⟨rfl, rfl, trivial⟩ rfl
    ⟨rfl, rfl, rfl, trivial⟩ (by decide)
  have hb := C4_destroy_reparents_and_splices.2.1 c4m 7 [8, 9] 2
    (by decide) (by decide) (by decide) rfl rfl ⟨rfl, rfl, trivial⟩ (by decide)
  have hc := C4_destroy_reparents_and_splices.2.2 c4m 5 1 [] [2, 6] 1
    (by decide) (by decide) rfl rfl rfl rfl ⟨rfl, rfl, rfl, trivial⟩
  exact ⟨ha.1 3 (by decide), ha.1 4 (by decide), ha.2.1,
    (hb 8 (by decide)).2.2, (hb 9 (by decide)).1, hc.1⟩

end Ung
